import Mathlib

/-
Verification development for the dialogue-act-item logistic-regression SLU
core found in alex/components/slu/dailrclassifier.py.  Python structures are
shallowly embedded: dictionaries become association lists, numpy vectors
become lists of rationals, the module PRNG becomes an explicit choice
function, and raised exceptions become explicit error values.
-/

namespace DAILR

/-- Kinds of runtime errors the embedded code can raise.  An
attributeError stands for Python raising AttributeError on a missing
attribute or on attribute access through None. -/
inductive PyError where
  | attributeError
  | unknownVersionError
  deriving DecidableEq, Repr

/- ------------------------------------------------------------------ -/
/- Claim C1: the per-DAI support check in train (source lines 805-821). -/
/- ------------------------------------------------------------------ -/

/-- Translation of the support check in train.  In the source, the two
continue statements are nested under the if verbose blocks, so the loop
abandons an insufficiently supported DAI only when verbose is true.
Returns true when the per-DAI loop continues without training. -/
def supportCheckSkips (verbose : Bool) (nPos nNeg minCorrect minIncorrect : Nat) : Bool :=
  if nPos < minCorrect ∧ verbose = true then true
  else if nNeg < minIncorrect ∧ verbose = true then true
  else false

/-- Whether train stores a classifier for a DAI with the given support:
it does so exactly when the support check did not make the loop continue
and the underlying fit call succeeded. -/
def classifierStored (verbose : Bool) (nPos nNeg minCorrect minIncorrect : Nat)
    (fitSucceeds : Bool) : Bool :=
  !(supportCheckSkips verbose nPos nNeg minCorrect minIncorrect) && fitSucceeds

/- ------------------------------------------------------------------ -/
/- Claim C10: get_size reads the attribute features_idxs (lines 1218-1220). -/
/- ------------------------------------------------------------------ -/

/-- All attribute names that any method of DAILogRegClassifier ever
assigns on self, collected from the whole source file.  Note that
feature_idxs is assigned but features_idxs never is. -/
def assignedAttributes : List String :=
  ["preprocessing", "clser_type", "intercepts", "coefs", "features_type",
   "features_size", "abstractions", "cls_threshold", "cls_thresholds",
   "abutterances", "abutt_nblists", "n_feat_sets", "_do_abstract_values",
   "_dai_counts", "_input_matrix", "_output_matrix",
   "_default_min_feat_count", "_default_min_conc_feat_count",
   "_default_min_correct_dai_count", "_default_min_incorrect_dai_count",
   "utterances", "utt_nblists", "das", "utt_ids", "category_labels",
   "utterance_features", "feat_counts", "feature_idxs", "idx2feature",
   "trained_classifiers", "features_list"]

/-- Translation of get_size: it returns len of the attribute named
features_idxs, looked up in the instance attribute dictionary; a missing
attribute raises AttributeError. -/
def get_size (attrs : List (String × Nat)) : Except PyError Nat :=
  match attrs.lookup ("features_idxs") with
  | some v => Except.ok v
  | none => Except.error PyError.attributeError

/- ------------------------------------------------------------------ -/
/- Claim C8: prune_classifiers default accept predicate (lines 551-613). -/
/- ------------------------------------------------------------------ -/

/-- A dialogue act item as used by prune_classifiers.  The fields dat,
name and value mirror the source attributes; is_generic is the flag the
external DialogueActItem class exposes (true when the value is a category
label). -/
structure DAI where
  dat : String
  name : Option String
  value : Option String
  is_generic : Bool
  deriving DecidableEq, Repr

/-- Modelled from the spec: the null dialogue act item (empty act), which
the external class reports through its is_null method. -/
def DAI.is_null (d : DAI) : Bool := d.dat == ("null")

/-- Python truthiness of an optional string: None and the empty string
are falsy. -/
def optTruthy : Option String → Bool
  | none => false
  | some s => !(s == (""))

/-- Translation of the default accept predicate _accept_dai inside
prune_classifiers.  The argument cnt is the catalogue count
self._dai_counts of the DAI; otherVal is the sentinel dai.other_val. -/
def accept_dai_default (minDaiCount : Nat) (otherVal : String) (d : DAI) (cnt : Nat) : Bool :=
  if d.is_generic then true
  else if d.name.isSome && d.value.isSome && decide (cnt < minDaiCount) then false
  else if d.value == some otherVal then false
  else if optTruthy d.name && (d.value == some ("dontcare")) then false
  else !(d.is_null)

/-- Translation of prune_classifiers with the default accept predicate:
the catalogue (an association list from DAIs to counts) is filtered by
the accept predicate. -/
def prune_classifiers (minDaiCount : Nat) (otherVal : String)
    (counts : List (DAI × Nat)) : List (DAI × Nat) :=
  counts.filter (fun p => accept_dai_default minDaiCount otherVal p.1 p.2)

/-- The concrete DAI inform(food=[OTHER]) from scenario S4. -/
def daiOther : DAI :=
  { dat := "inform", name := some ("food"), value := some ("[OTHER]"), is_generic := false }

/- ------------------------------------------------------------------ -/
/- Claim C9: load_model version dispatch (lines 1140-1216). -/
/- ------------------------------------------------------------------ -/

/-- Model of str.startswith used by load_model on the version tag. -/
def versionStarts (version tag : String) : Bool :=
  tag.data.isPrefixOf version.data

/-- The version tags the spec lists as loadable. -/
def knownVersions : List String :=
  ["0", "1", "2", "3.0", "3.1", "DSTC13", "DSTC13.2", "4"]

/-- Outcome of running load_model on a freshly constructed classifier. -/
inductive LoadOutcome where
  | loaded
  | silent
  | unknownVersionError
  | attributeError
  deriving DecidableEq, Repr

/-- Translation of the version dispatch of load_model, run on a freshly
constructed classifier of the given clser_type.  A tag that merely starts
with 3. or DSTC13 enters the legacy branch; if it is not one of the four
tags that branch unpacks, no field is assigned there, and afterwards the
recast block (which runs for every version other than 4 when the
classifier type is logistic) reads self.trained_classifiers, an attribute
a fresh instance does not have, raising AttributeError; with another
classifier type load_model returns with the model state unset. -/
def load_dispatch (clserType version : String) : LoadOutcome :=
  if version = "0" then LoadOutcome.loaded
  else if version = "1" then LoadOutcome.loaded
  else if version = "2" then LoadOutcome.loaded
  else if versionStarts version ("3.") || versionStarts version ("DSTC13") then
    if version = "DSTC13" then LoadOutcome.loaded
    else if version = "DSTC13.2" ∨ version = "3.0" ∨ version = "3.1" then LoadOutcome.loaded
    else if clserType = "logistic" then LoadOutcome.attributeError
    else LoadOutcome.silent
  else if version = "4" then LoadOutcome.loaded
  else LoadOutcome.unknownVersionError

/- ------------------------------------------------------------------ -/
/- Claims C2 and C4: preprocessing, the derived _do_abstract_values set,
   and the version-4 model store. -/
/- ------------------------------------------------------------------ -/

/-- Derivation of the _do_abstract_values set from the abstractions
configuration, as performed by the constructor (lines 166-170) and by
the legacy 3.x branch of load_model (lines 1184-1187).  The set is
modelled as a list with false before true, matching iteration order. -/
def doAbstractValuesOf (abstractions : List String) : List Bool :=
  (if ("partial" : String) ∈ abstractions then [false] else []) ++
    (if ("abstract" : String) ∈ abstractions then [true] else [])

/-- Translation of the preprocessing stage of extract_features (lines
372-393): self.abutterances starts as None and is assigned a dictionary
of abstracted utterances only when a preprocessing object is
configured.  The abstracted contents come from the external
Preprocessor, so only presence is modelled. -/
def abutterancesAfterExtract (preprocessing : Bool) (utts : List String) :
    Option (List String) :=
  if preprocessing then some utts else none

/-- Translation of the ngram branch of _extract_feats_from_one with inst
equal to all (lines 227-240): for every selected do_abstract value the
code calls abutt_hyp.all_instantiations, which raises AttributeError
when no abstracted utterance exists (abutt_hyp is None); afterwards a
concrete feature set is appended when the concrete abstraction is
selected.  The result counts the feature sets produced; their contents
come from the external feature extractors. -/
def extractNgramFeatSetsAll (doAbstractVals : List Bool) (abuttPresent : Bool)
    (concrete : Bool) : Except PyError Nat :=
  match doAbstractVals with
  | [] => Except.ok (if concrete then 1 else 0)
  | _ :: rest =>
      if abuttPresent then
        (extractNgramFeatSetsAll rest abuttPresent concrete).map (· + 1)
      else Except.error PyError.attributeError

/-- Translation of the start of the per-DAI training loop (lines
757-759): train builds the instantiation dictionary by iterating
self.abutterances.iteritems(); when abutterances is None, the attribute
access on None raises AttributeError. -/
def trainInstsStep (abutterances : Option (List String)) :
    Except PyError (List String) :=
  match abutterances with
  | none => Except.error PyError.attributeError
  | some abutts => Except.ok abutts

/-- The training pipeline of scenario S1 run without a Preprocessor,
reduced to the steps that decide whether it can run at all:
extract_features assembles the inst-all ngram feature sets (with
abutterances left None) and train then iterates abutterances. -/
def pipelineNoPreprocessing (abstractions : List String) (utts : List String) :
    Except PyError Nat := do
  let abutts := abutterancesAfterExtract false utts
  let nsets ← extractNgramFeatSetsAll (doAbstractValuesOf abstractions)
    abutts.isSome (("concrete" : String) ∈ abstractions)
  let _ ← trainInstsStep abutts
  pure nsets

/-- The classifier fields relevant to version-4 save and load, together
with the derived _do_abstract_values set that feature extraction
iterates.  Features are (set_index, payload) pairs; DAIs are keyed by
their string form. -/
structure ModelState where
  abstractions : List String
  do_abstract_values : List Bool
  feature_idxs : List ((Nat × Nat) × Nat)
  intercepts : List (String × ℚ)
  coefs : List (String × List ℚ)
  features_type : List String
  features_size : Nat
  cls_thresholds : List (String × ℚ)
  deriving DecidableEq, Repr

/-- A freshly constructed DAILogRegClassifier (lines 124-177):
_do_abstract_values is derived from the constructor argument
abstractions. -/
def newClassifier (abstractions : List String) : ModelState :=
  { abstractions := abstractions
    do_abstract_values := doAbstractValuesOf abstractions
    feature_idxs := []
    intercepts := []
    coefs := []
    features_type := ["ngram"]
    features_size := 4
    cls_thresholds := [] }

/-- The version-4 artefact payload written by save_model for a logistic
classifier (lines 1116-1131). -/
structure SavedModelV4 where
  feature_idxs : List ((Nat × Nat) × Nat)
  intercepts : List (String × ℚ)
  coefs : List (String × List ℚ)
  features_type : List String
  features_size : Nat
  cls_thresholds : List (String × ℚ)
  abstractions : List String
  deriving DecidableEq, Repr

/-- Translation of save_model for a logistic classifier with do_reduce
disabled: the current model fields are pickled as a version-4 tuple. -/
def save_model (st : ModelState) : SavedModelV4 :=
  { feature_idxs := st.feature_idxs
    intercepts := st.intercepts
    coefs := st.coefs
    features_type := st.features_type
    features_size := st.features_size
    cls_thresholds := st.cls_thresholds
    abstractions := st.abstractions }

/-- Translation of the version-4 branch of load_model (lines 1188-1203):
the saved fields are restored, but unlike the legacy 3.x branch this
branch never recomputes _do_abstract_values from the loaded
abstractions, so the constructor-time value persists unchanged. -/
def load_model_v4 (st : ModelState) (d : SavedModelV4) : ModelState :=
  { st with
    feature_idxs := d.feature_idxs
    intercepts := d.intercepts
    coefs := d.coefs
    features_type := d.features_type
    features_size := d.features_size
    cls_thresholds := d.cls_thresholds
    abstractions := d.abstractions }

/-- The skeleton of ngram feature sets assembled by
_extract_feats_from_one for an instantiated decode example (lines
245-252): one abstracted feature set per element of _do_abstract_values,
then one concrete feature set when the concrete abstraction is selected.
Each tag is (concrete source, do_abstract flag); the list fixes the
set_index layout of the combined feature vector. -/
def ngramFeatSetTags (st : ModelState) : List (Bool × Bool) :=
  (st.do_abstract_values.map (fun b => (false, b))) ++
    (if ("concrete" : String) ∈ st.abstractions then [(true, false)] else [])

/-- A trained model that was configured with all three abstractions,
about to be saved as a version-4 artefact. -/
def saverState : ModelState :=
  { (newClassifier ["concrete", "partial", "abstract"]) with
    feature_idxs := [((0, 7), 0), ((1, 3), 1)]
    intercepts := [("hello()", -1/2)]
    coefs := [("hello()", [2, 0])]
    cls_thresholds := [("hello()", 2/5)] }

/- ------------------------------------------------------------------ -/
/- Claim C6: prune_features (lines 430-513) and _get_conc_feats_idxs
   (lines 181-194). -/
/- ------------------------------------------------------------------ -/

/-- A joined feature as produced by Features.flatten: a (set_index, payload)
pair, where set_index identifies the feature set the sub-feature came
from. -/
abbrev Feat := Nat × Nat

/-- Helper for dedupFirst: walk the list, keeping each element not yet
seen. -/
def dedupFirstAux {α : Type} [DecidableEq α] (seen : List α) : List α → List α
  | [] => []
  | a :: rest =>
      if a ∈ seen then dedupFirstAux seen rest
      else a :: dedupFirstAux (seen ++ [a]) rest

/-- Deduplication keeping first occurrences, modelling the key order of a
dictionary populated by repeated increments. -/
def dedupFirst {α : Type} [DecidableEq α] (l : List α) : List α :=
  dedupFirstAux [] l

/-- Translation of _get_conc_feats_idxs: the extraction order is mimicked
by advancing one index per selected do_abstract value, after which the
concrete ngram feature set (when selected) gets the next index.  Only
ngram features are ever considered concrete. -/
def get_conc_feats_idxs (features_type : List String) (doAbstractVals : List Bool)
    (abstractions : List String) : List Nat :=
  if ("ngram" : String) ∈ features_type then
    if ("concrete" : String) ∈ abstractions then [doAbstractVals.length] else []
  else []

/-- Translation of the counting pass of prune_features (lines 454-459):
every occurrence of a feature in a training example increments its
count.  Each training example is the list of features of one
utterance. -/
def featCounts (utts : List (List Feat)) : List (Feat × Nat) :=
  (dedupFirst utts.flatten).map (fun f => (f, utts.flatten.count f))

/-- Translation of the low-count test of prune_features (lines 466-481):
with a single feature set a uniform threshold applies (the concrete one
exactly when _get_conc_feats_idxs is nonempty); otherwise the feature is
a (set_index, payload) pair and the threshold is chosen by whether its
set_index is a concrete set index. -/
def isLowCount (nFeatSets : Nat) (concIdxs : List Nat)
    (minFeatureCount minConcFeatureCount : Nat) (p : Feat × Nat) : Bool :=
  if nFeatSets = 1 then
    decide (p.2 < (if concIdxs.isEmpty then minFeatureCount else minConcFeatureCount))
  else
    decide (p.2 < (if p.1.1 ∈ concIdxs then minConcFeatureCount else minFeatureCount))

/-- Translation of the index-assignment loop of prune_features (lines
493-497): each surviving feature receives the next dense index. -/
def assignIdxs : List Feat → Nat → List (Feat × Nat)
  | [], _ => []
  | f :: rest, i => (f, i) :: assignIdxs rest (i + 1)

/-- Translation of prune_features: count features, drop the low-count
ones, assign dense indices in iteration order, and build the inverse
list idx2feature.  Returns (feature_idxs, idx2feature). -/
def prune_features (nFeatSets : Nat) (concIdxs : List Nat) (minF minC : Nat)
    (utts : List (List Feat)) : List (Feat × Nat) × List Feat :=
  (assignIdxs (((featCounts utts).filter
      (fun p => !(isLowCount nFeatSets concIdxs minF minC p))).map Prod.fst) 0,
   ((featCounts utts).filter
      (fun p => !(isLowCount nFeatSets concIdxs minF minC p))).map Prod.fst)

/- ------------------------------------------------------------------ -/
/- Claim C7: balance_data (lines 684-707). -/
/- ------------------------------------------------------------------ -/

/-- Row indices carrying a given label, in row order, starting the
numbering at i: models one entry of the outputs_idxs dictionary that
balance_data builds by enumerating outputs. -/
def labelIdxsFrom (y : ℤ) : List ℤ → Nat → List Nat
  | [], _ => []
  | z :: rest, i =>
      if z = y then i :: labelIdxsFrom y rest (i + 1)
      else labelIdxsFrom y rest (i + 1)

/-- All row indices whose label is y. -/
def labelIdxs (outputs : List ℤ) (y : ℤ) : List Nat := labelIdxsFrom y outputs 0

/-- The rows balance_data resamples for one label group: n_remains draws
with replacement from the rows of that label.  The module PRNG behind
random.choice is made explicit: draw number t picks the group element at
position rand t modulo the group size. -/
def augmentForLabel {ι : Type} (rand : Nat → Nat) (d0 : ι) (inputs : List ι)
    (outputs : List ℤ) (maxCount : Nat) (start : Nat) (y : ℤ) : List (ι × ℤ) :=
  (List.range (maxCount - (labelIdxs outputs y).length)).map (fun k =>
    (inputs.getD ((labelIdxs outputs y).getD
        (rand (start + k) % (labelIdxs outputs y).length) 0) d0, y))

/-- The loop of balance_data over the label groups, threading the number
of draws made so far. -/
def augmentAll {ι : Type} (rand : Nat → Nat) (d0 : ι) (inputs : List ι)
    (outputs : List ℤ) (maxCount : Nat) : List ℤ → Nat → List (ι × ℤ)
  | [], _ => []
  | y :: rest, start =>
      augmentForLabel rand d0 inputs outputs maxCount start y ++
        augmentAll rand d0 inputs outputs maxCount rest
          (start + (augmentForLabel rand d0 inputs outputs maxCount start y).length)

/-- The size of the largest label group, modelling
max(map(len, outputs_idxs.values())). -/
def maxCountOf (outputs : List ℤ) : Nat :=
  ((dedupFirst outputs).map (fun y => (labelIdxs outputs y).length)).foldl max 0

/-- All rows balance_data generates beyond the original ones. -/
def balanceNewPairs {ι : Type} (rand : Nat → Nat) (d0 : ι) (inputs : List ι)
    (outputs : List ℤ) : List (ι × ℤ) :=
  augmentAll rand d0 inputs outputs (maxCountOf outputs) (dedupFirst outputs) 0

/-- Translation of balance_data: group row indices by label, draw with
replacement from each group until every group reaches the size of the
largest one, and append the drawn rows after the original ones; when no
row was drawn the original data is returned unchanged.  The value d0 is
only a formal default for out-of-range indexing, which never occurs. -/
def balance_data {ι : Type} (rand : Nat → Nat) (d0 : ι) (inputs : List ι)
    (outputs : List ℤ) : List ι × List ℤ :=
  if (balanceNewPairs rand d0 inputs outputs).isEmpty then (inputs, outputs)
  else (inputs ++ (balanceNewPairs rand d0 inputs outputs).map Prod.fst,
        outputs ++ (balanceNewPairs rand d0 inputs outputs).map Prod.snd)

/- ------------------------------------------------------------------ -/
/- Claim C5: forget_useless_feats (lines 1076-1095) and the logistic
   branch of predict_prob (lines 1245-1254). -/
/- ------------------------------------------------------------------ -/

/-- Modelled from the spec: get_feature_vector of the external Features
class, which builds the dense feature vector over the registry, entry i
holding the value of the feature that feature_idxs maps to i.  An
utterance is represented by its finite feature valuation. -/
def getFeatureVector (fmap : List (Feat × Nat)) (m : Nat)
    (utt : List (Feat × ℚ)) : List ℚ :=
  (List.range m).map (fun i =>
    ((utt.filter (fun fv => decide (fmap.lookup fv.1 = some i))).map
      Prod.snd).sum)

/-- The dot product of a coefficient vector with a feature vector, as in
np.dot inside predict_prob. -/
def dot (w x : List ℚ) : ℚ :=
  (List.zipWith (fun a b => a * b) w x).sum

/-- The logistic probability computed by predict_prob:
1 / (1 + exp(-(intercept + coefs . x))). -/
noncomputable def sigmoid (z : ℚ) : ℝ :=
  1 / (1 + Real.exp (-(z : ℝ)))

/-- Translation of used_fidxs_ar in forget_useless_feats (lines
1083-1086): the sorted union over all per-DAI models of the coefficient
indices holding a nonzero value. -/
def usedIdxs {δ : Type} (coefs : List (δ × List ℚ)) : List Nat :=
  (List.range ((coefs.map (fun p => p.2.length)).foldl max 0)).filter
    (fun i => coefs.any (fun p => decide (p.2.getD i 0 ≠ 0)))

/-- Translation of forget_useless_feats for a logistic classifier (lines
1088-1095): feature_idxs is restricted to the used indices, each index
replaced by its rank among them, and every per-DAI coefficient vector is
compacted to the used indices.  Intercepts are untouched. -/
def forget_useless_feats {δ : Type} (coefs : List (δ × List ℚ))
    (fmap : List (Feat × Nat)) : List (Feat × Nat) × List (δ × List ℚ) :=
  (fmap.filterMap (fun p =>
      if p.2 ∈ usedIdxs coefs then some (p.1, (usedIdxs coefs).indexOf p.2)
      else none),
   coefs.map (fun p => (p.1, (usedIdxs coefs).map (fun i => p.2.getD i 0))))

/-- The coefficient a feature contributes through an optional index:
absent features weigh nothing. -/
def wAtOpt (w : List ℚ) : Option Nat → ℚ
  | none => 0
  | some i => w.getD i 0

/-- One coordinate vector: the value c at the index oi points at, zero
elsewhere. -/
def unitVec (m : Nat) (oi : Option Nat) (c : ℚ) : List ℚ :=
  (List.range m).map (fun i => if oi = some i then c else 0)

/- ------------------------------------------------------------------ -/
/- Claim C3: _calibrate_prior (lines 987-1074). -/
/- ------------------------------------------------------------------ -/

/-- Precision with the zero guard of the nested fscore helper. -/
def precQ (tp fp : ℚ) : ℚ :=
  if tp + fp ≠ 0 then tp / (tp + fp) else 0

/-- Recall with the zero guard of the nested fscore helper. -/
def recQ (tp fn : ℚ) : ℚ :=
  if tp + fn ≠ 0 then tp / (tp + fn) else 0

/-- The F-score computed by the nested fscore helper of _calibrate_prior
(lines 1003-1014). -/
def fscoreQ (tp fp fn : ℚ) : ℚ :=
  if precQ tp fp + recQ tp fn > 0 then
    2 * precQ tp fp * recQ tp fn / (precQ tp fp + recQ tp fn)
  else 0

/-- Stable insertion into a list sorted by predicted probability. -/
def insertByFst (d : ℚ × ℚ) : List (ℚ × ℚ) → List (ℚ × ℚ)
  | [] => [d]
  | e :: rest => if e.1 ≤ d.1 then e :: insertByFst d rest else d :: e :: rest

/-- Stable ascending sort of the calibration data by predicted
probability, modelling sorted(calib_data, key=itemgetter(0)). -/
def sortByFst (l : List (ℚ × ℚ)) : List (ℚ × ℚ) :=
  l.foldr insertByFst []

/-- The initial true-positive count of the sweep: every datum classified
positive (line 1021). -/
def calibInitTP (sd : List (ℚ × ℚ)) : ℚ := (sd.map Prod.snd).sum

/-- The initial false-positive count of the sweep (line 1022). -/
def calibInitFP (sd : List (ℚ × ℚ)) : ℚ := (sd.map (fun d => 1 - d.2)).sum

/-- Translation of the sweep loop of _calibrate_prior (lines 1029-1059):
each outer step consumes one group of data sharing a predicted
probability (the inner while loop), moves the group from the positive to
the negative side of the confusion counts, and records the index of the
last datum of the group whenever the error strictly improves on the best
seen so far.  The argument idx is the index of the current datum and
split the recorded split index; labels are rationals, as in the numpy
array.  The first argument is fuel bounding the number of outer steps;
since every step consumes at least one datum, the data length is enough
fuel. -/
def calibSweep : Nat → List (ℚ × ℚ) → Nat → ℚ → ℚ → ℚ → ℚ → Nat → Nat
  | _, [], _, _, _, _, _, split => split
  | 0, _ :: _, _, _, _, _, _, split => split
  | fuel + 1, (p, y) :: rest, idx, tp, fp, fn, best, split =>
      let run := rest.takeWhile (fun d => decide (d.1 = p))
      let s : ℚ := y + (run.map Prod.snd).sum
      let cnt : ℚ := ((1 + run.length : Nat) : ℚ)
      let tp2 := tp - s
      let fp2 := fp - (cnt - s)
      let fn2 := fn + s
      let err := 1 - fscoreQ tp2 fp2 fn2
      if err < best then
        calibSweep fuel (rest.dropWhile (fun d => decide (d.1 = p)))
          (idx + run.length + 1) tp2 fp2 fn2 err (idx + run.length)
      else
        calibSweep fuel (rest.dropWhile (fun d => decide (d.1 = p)))
          (idx + run.length + 1) tp2 fp2 fn2 best split

/-- The split index _calibrate_prior computes for the given calibration
data: the sweep starts from the all-positive baseline error with
split_idx zero (lines 1019-1026).  Each outer step of the loop consumes
at least one datum, so the data length bounds the number of steps and
serves as fuel for the structural recursion. -/
def calibSplitIdx (data : List (ℚ × ℚ)) : Nat :=
  calibSweep (sortByFst data).length (sortByFst data) 0
    (calibInitTP (sortByFst data)) (calibInitFP (sortByFst data)) 0
    (1 - fscoreQ (calibInitTP (sortByFst data))
      (calibInitFP (sortByFst data)) 0) 0

/-- Translation of the threshold assignment of _calibrate_prior (lines
1064-1068): the midpoint of the probabilities at the split index and at
the following index, or the probability at the split index alone when
the following index is out of range (the IndexError fallback). -/
def calibrateThreshold (data : List (ℚ × ℚ)) : ℚ :=
  if calibSplitIdx data + 1 < (sortByFst data).length then
    (1 / 2) * (((sortByFst data).getD (calibSplitIdx data) (0, 0)).1 +
      ((sortByFst data).getD (calibSplitIdx data + 1) (0, 0)).1)
  else ((sortByFst data).getD (calibSplitIdx data) (0, 0)).1

/-- The groups of equal predicted probability of the sorted data, each
recorded as (probability, group size, sum of labels). -/
def groupRuns : List (ℚ × ℚ) → List (ℚ × Nat × ℚ)
  | [] => []
  | (p, y) :: rest =>
      (p, 1 + (rest.takeWhile (fun d => decide (d.1 = p))).length,
        y + ((rest.takeWhile (fun d => decide (d.1 = p))).map Prod.snd).sum) ::
        groupRuns (rest.dropWhile (fun d => decide (d.1 = p)))
  termination_by l => l.length
  decreasing_by
    (have h := (List.dropWhile_sublist (l := rest)
        (p := fun d => decide (d.1 = p))).length_le
     simp only [List.length_cons]
     omega)

/-- The error (one minus F-score) after each boundary: the boundary
after group i classifies groups up to i as negative and the rest as
positive. -/
def boundaryErrors (tp fp fn : ℚ) : List (ℚ × Nat × ℚ) → List ℚ
  | [] => []
  | g :: gs =>
      (1 - fscoreQ (tp - g.2.2) (fp - ((g.2.1 : ℚ) - g.2.2)) (fn + g.2.2)) ::
        boundaryErrors (tp - g.2.2) (fp - ((g.2.1 : ℚ) - g.2.2)) (fn + g.2.2) gs

/-- The least element of a list of errors (0 for the empty list). -/
def listMin : List ℚ → ℚ
  | [] => 0
  | [e] => e
  | e :: f :: rest => min e (listMin (f :: rest))

/-- The boundary errors of the sorted calibration data, walked from the
all-positive baseline. -/
def calibBoundaryErrors (data : List (ℚ × ℚ)) : List ℚ :=
  boundaryErrors (calibInitTP (sortByFst data)) (calibInitFP (sortByFst data))
    0 (groupRuns (sortByFst data))

/-- The error of the all-positive baseline. -/
def calibBaseError (data : List (ℚ × ℚ)) : ℚ :=
  1 - fscoreQ (calibInitTP (sortByFst data)) (calibInitFP (sortByFst data)) 0

/-- The threshold the claim describes: choose the earliest boundary with
maximal F-score, equivalently minimal error (ties resolved to the
earliest), and take the midpoint between the chosen group probability
and the next higher distinct probability, or the chosen group
probability itself at the sequence end. -/
def claimThreshold (data : List (ℚ × ℚ)) : ℚ :=
  if (calibBoundaryErrors data).indexOf (listMin (calibBoundaryErrors data)) + 1 <
      (groupRuns (sortByFst data)).length then
    (((groupRuns (sortByFst data)).getD
        ((calibBoundaryErrors data).indexOf
          (listMin (calibBoundaryErrors data))) (0, 0, 0)).1 +
      ((groupRuns (sortByFst data)).getD
        ((calibBoundaryErrors data).indexOf
          (listMin (calibBoundaryErrors data)) + 1) (0, 0, 0)).1) / 2
  else ((groupRuns (sortByFst data)).getD
      ((calibBoundaryErrors data).indexOf
        (listMin (calibBoundaryErrors data))) (0, 0, 0)).1

/-- The group-level mirror of calibSweep, consuming one recorded group
per step; used to relate the sweep to the boundary errors. -/
def gSweep : List (ℚ × Nat × ℚ) → Nat → ℚ → ℚ → ℚ → ℚ → Nat → Nat
  | [], _, _, _, _, _, split => split
  | g :: gs, idx, tp, fp, fn, best, split =>
      let tp2 := tp - g.2.2
      let fp2 := fp - ((g.2.1 : ℚ) - g.2.2)
      let fn2 := fn + g.2.2
      let err := 1 - fscoreQ tp2 fp2 fn2
      if err < best then
        gSweep gs (idx + g.2.1) tp2 fp2 fn2 err (idx + g.2.1 - 1)
      else
        gSweep gs (idx + g.2.1) tp2 fp2 fn2 best split

/-- The number of data covered by the groups up to and including group
j. -/
def cumLen (gs : List (ℚ × Nat × ℚ)) (j : Nat) : Nat :=
  ((gs.take (j + 1)).map (fun g => g.2.1)).sum

end DAILR

/- ------------------------------------------------------------------ -/
/- Theorems. -/
/- ------------------------------------------------------------------ -/

namespace DAILR

/-- Claim C1: the claim says a DAI whose training rows have
n_pos below min_correct_dai_count gets no classifier regardless of the
verbose flag.  The code disagrees: with verbose set to false the
continue statements guarded by the verbose flag never run, so a DAI with
one positive row still gets a classifier when min_correct_dai_count is
two, while with verbose set to true it is skipped.  The skip therefore
depends on the verbose flag, contradicting the claim and the spec. -/
theorem c1_support_check_ignored_without_verbose :
    classifierStored false 1 2 2 1 true = true ∧
      classifierStored true 1 2 2 1 true = false := by decide

/-- Claim C10: on every attribute state reachable by the class (all keys
among the attributes some method assigns), get_size raises
AttributeError, because features_idxs is never among the assigned
attribute names. -/
theorem c10_get_size_raises (attrs : List (String × Nat))
    (h : ∀ kv ∈ attrs, kv.1 ∈ assignedAttributes) :
    get_size attrs = Except.error PyError.attributeError := by
  unfold get_size
  have hnone : attrs.lookup ("features_idxs") = none := by
    induction attrs with
    | nil => rfl
    | cons kv rest ih =>
        have hk : kv.1 ∈ assignedAttributes := h kv (List.mem_cons_self kv rest)
        have hne : ¬(("features_idxs" : String) == kv.1) = true := by
          intro hb
          have : ("features_idxs" : String) = kv.1 := by
            exact eq_of_beq hb
          rw [← this] at hk
          revert hk; decide
        have ihres := ih (fun kv2 hkv2 => h kv2 (List.mem_cons_of_mem kv hkv2))
        simp [List.lookup, hne, ihres]
  rw [hnone]

/-- Claim C10 witness: a trained-classifier attribute state containing
feature_idxs (the attribute that is populated) still makes get_size
raise. -/
theorem c10_get_size_raises_witness :
    get_size [("feature_idxs", 12), ("clser_type", 0)] = Except.error PyError.attributeError :=
  c10_get_size_raises [("feature_idxs", 12), ("clser_type", 0)] (by decide)

/-- Claim C8: with the default accept predicate, a DAI in the pruned
catalogue survives exactly when it is generic or none of the four
rejection conditions holds: slot and value both set with count below
min_dai_count, value equal to other_val, slot truthy with value
dontcare, or the null DAI. -/
theorem c8_prune_classifiers_default (minDaiCount : Nat) (otherVal : String)
    (counts : List (DAI × Nat)) (d : DAI) (cnt : Nat)
    (h : (d, cnt) ∈ counts) :
    ((d, cnt) ∈ prune_classifiers minDaiCount otherVal counts ↔
      (d.is_generic = true ∨
        ¬((d.name.isSome = true ∧ d.value.isSome = true ∧ cnt < minDaiCount) ∨
          d.value = some otherVal ∨
          (optTruthy d.name = true ∧ d.value = some ("dontcare")) ∨
          d.is_null = true))) := by
  unfold prune_classifiers
  rw [List.mem_filter]
  have key : accept_dai_default minDaiCount otherVal d cnt = true ↔
      (d.is_generic = true ∨
        ¬((d.name.isSome = true ∧ d.value.isSome = true ∧ cnt < minDaiCount) ∨
          d.value = some otherVal ∨
          (optTruthy d.name = true ∧ d.value = some ("dontcare")) ∨
          d.is_null = true)) := by
    unfold accept_dai_default
    split_ifs with hg hc hov hdc
    · simp [hg]
    · simp only [Bool.and_eq_true, decide_eq_true_eq] at hc
      simp only [Bool.false_eq_true, false_iff]
      rintro (hgen | hn)
      · exact hg hgen
      · exact hn (Or.inl ⟨hc.1.1, hc.1.2, hc.2⟩)
    · simp only [beq_iff_eq] at hov
      simp only [Bool.false_eq_true, false_iff]
      rintro (hgen | hn)
      · exact hg hgen
      · exact hn (Or.inr (Or.inl hov))
    · simp only [Bool.and_eq_true, beq_iff_eq] at hdc
      simp only [Bool.false_eq_true, false_iff]
      rintro (hgen | hn)
      · exact hg hgen
      · exact hn (Or.inr (Or.inr (Or.inl hdc)))
    · simp only [Bool.and_eq_true, decide_eq_true_eq] at hc
      simp only [beq_iff_eq] at hov
      simp only [Bool.and_eq_true, beq_iff_eq] at hdc
      rw [Bool.not_eq_true']
      constructor
      · intro hnull
        refine Or.inr ?_
        rintro (⟨ha, hb, hlt⟩ | hb | hcd | hnu)
        · exact hc ⟨⟨ha, hb⟩, hlt⟩
        · exact hov hb
        · exact hdc hcd
        · rw [hnull] at hnu; exact Bool.false_ne_true hnu
      · rintro (hgen | hn)
        · exact absurd hgen hg
        · rcases Bool.eq_false_or_eq_true d.is_null with hx | hx
          · exact absurd (Or.inr (Or.inr (Or.inr hx))) hn
          · exact hx
  constructor
  · rintro ⟨-, hacc⟩
    exact key.mp hacc
  · intro hkeep
    exact ⟨h, key.mpr hkeep⟩

/-- Claim C8 witness: scenario S4.  The concrete DAI inform(food=[OTHER])
with count 10 and other_val [OTHER] is in the catalogue and is removed by
prune_classifiers with the default predicate and min_dai_count 5. -/
theorem c8_prune_classifiers_default_witness :
    (daiOther, 10) ∈ [(daiOther, 10)] ∧
      ¬((daiOther, 10) ∈ prune_classifiers 5 ("[OTHER]") [(daiOther, 10)]) := by
  refine ⟨by decide, fun hmem => ?_⟩
  have h := (c8_prune_classifiers_default 5 ("[OTHER]") [(daiOther, 10)] daiOther 10
    (by decide)).mp hmem
  revert h; decide

/-- Claim C9 counterexample: the artefact version tag 3.2 is not one of
the eight versions the claim lists, yet load_model on a tree-type
classifier completes without raising any error (it silently leaves the
model state unset), so load_model does not reject every unknown
version. -/
theorem c9_unknown_3x_version_not_rejected :
    ¬(("3.2" : String) ∈ knownVersions) ∧
      load_dispatch ("tree") ("3.2") = LoadOutcome.silent ∧
      load_dispatch ("tree") ("3.2") ≠ LoadOutcome.unknownVersionError := by
  refine ⟨by decide, by decide, by decide⟩

/-- Claim C9 as amended: the eight listed versions load and restore their
fields; an unknown version that does not start with 3. or DSTC13 raises
the unknown-version error; an unknown version starting with 3. or DSTC13
enters the legacy branch without unpacking, after which a fresh logistic
classifier fails with AttributeError while any other classifier type
completes silently with the model state unset. -/
theorem c9_load_dispatch_characterisation (clserType version : String) :
    (version ∈ knownVersions → load_dispatch clserType version = LoadOutcome.loaded) ∧
    (¬version ∈ knownVersions →
      (versionStarts version ("3.") || versionStarts version ("DSTC13")) = false →
      load_dispatch clserType version = LoadOutcome.unknownVersionError) ∧
    (¬version ∈ knownVersions →
      (versionStarts version ("3.") || versionStarts version ("DSTC13")) = true →
      load_dispatch clserType version =
        (if clserType = "logistic" then LoadOutcome.attributeError else LoadOutcome.silent)) := by
  refine ⟨?_, ?_, ?_⟩
  · intro hmem
    simp only [knownVersions, List.mem_cons, List.not_mem_nil, or_false] at hmem
    rcases hmem with h | h | h | h | h | h | h | h <;> subst h <;> rfl
  · intro hmem hstart
    have h0 : version ≠ "0" := fun h => hmem (by rw [h]; decide)
    have h1 : version ≠ "1" := fun h => hmem (by rw [h]; decide)
    have h2 : version ≠ "2" := fun h => hmem (by rw [h]; decide)
    have h4 : version ≠ "4" := fun h => hmem (by rw [h]; decide)
    unfold load_dispatch
    rw [if_neg h0, if_neg h1, if_neg h2, hstart]
    simp only [Bool.false_eq_true, if_false]
    rw [if_neg h4]
  · intro hmem hstart
    have h0 : version ≠ "0" := fun h => hmem (by rw [h]; decide)
    have h1 : version ≠ "1" := fun h => hmem (by rw [h]; decide)
    have h2 : version ≠ "2" := fun h => hmem (by rw [h]; decide)
    have hd : version ≠ "DSTC13" := fun h => hmem (by rw [h]; decide)
    have hd2 : ¬(version = "DSTC13.2" ∨ version = "3.0" ∨ version = "3.1") := by
      rintro (h | h | h) <;> exact hmem (by rw [h]; decide)
    unfold load_dispatch
    rw [if_neg h0, if_neg h1, if_neg h2, hstart]
    simp only [if_true]
    rw [if_neg hd, if_neg hd2]

/-- Claim C9 witness: version 3.0 is a known version and loads. -/
theorem c9_load_dispatch_witness :
    (("3.0" : String) ∈ knownVersions) ∧
      load_dispatch ("logistic") ("3.0") = LoadOutcome.loaded :=
  ⟨by decide, (c9_load_dispatch_characterisation ("logistic") ("3.0")).1 (by decide)⟩

/-- Every entry listed by assignIdxs carries a feature of the input
list. -/
theorem assignIdxs_mem_fst {l : List Feat} {i : Nat} {p : Feat × Nat}
    (h : p ∈ assignIdxs l i) : p.1 ∈ l := by
  induction l generalizing i with
  | nil => cases h
  | cons f rest ih =>
      rcases List.mem_cons.mp h with h | h
      · rw [h]; exact List.mem_cons_self _ _
      · exact List.mem_cons_of_mem _ (ih h)

/-- The indices handed out by assignIdxs starting at i are the
consecutive naturals from i. -/
theorem assignIdxs_map_snd (l : List Feat) (i : Nat) :
    (assignIdxs l i).map Prod.snd = List.range' i l.length := by
  induction l generalizing i with
  | nil => rfl
  | cons f rest ih => simp [assignIdxs, List.range'_succ, ih]

/-- assignIdxs preserves length. -/
theorem assignIdxs_length (l : List Feat) (i : Nat) :
    (assignIdxs l i).length = l.length := by
  induction l generalizing i with
  | nil => rfl
  | cons f rest ih => simp [assignIdxs, ih]

/-- Every entry of assignIdxs is the feature of the input list at the
position matching its index. -/
theorem assignIdxs_getD {l : List Feat} {i : Nat} {p : Feat × Nat}
    (h : p ∈ assignIdxs l i) :
    i ≤ p.2 ∧ p.2 - i < l.length ∧ l.getD (p.2 - i) (0, 0) = p.1 := by
  induction l generalizing i with
  | nil => cases h
  | cons f rest ih =>
      rcases List.mem_cons.mp h with h | h
      · rw [h]
        exact ⟨Nat.le_refl i, by simp, by simp⟩
      · obtain ⟨h1, h2, h3⟩ := ih h
        refine ⟨Nat.le_of_succ_le h1, ?_, ?_⟩
        · simp only [List.length_cons]
          omega
        · have hpos : p.2 - i = (p.2 - (i + 1)) + 1 := by omega
          rw [hpos]
          simpa using h3

/-- Conversely, every position of the input list appears in assignIdxs
with the matching index. -/
theorem assignIdxs_of_getD (l : List Feat) (i j : Nat) (h : j < l.length) :
    (l.getD j (0, 0), i + j) ∈ assignIdxs l i := by
  induction l generalizing i j with
  | nil => simp at h
  | cons f rest ih =>
      cases j with
      | zero => simp [assignIdxs]
      | succ j2 =>
          have h2 : j2 < rest.length := by
            simp only [List.length_cons] at h
            omega
          have := ih (i + 1) j2 h2
          have harith : i + 1 + j2 = i + (j2 + 1) := by omega
          rw [harith] at this
          exact List.mem_cons_of_mem _ (by simpa using this)

/-- Claim C6: after prune_features with more than one feature set, every
feature in feature_idxs has a count at least its applicable threshold
(the concrete threshold when its set_index is a concrete set index, the
abstract one otherwise), the assigned indices are exactly 0..m-1 in
order, and idx2feature inverts feature_idxs in both directions. -/
theorem c6_prune_features_invariant (nFeatSets : Nat) (concIdxs : List Nat)
    (minF minC : Nat) (utts : List (List Feat)) (hn : nFeatSets ≠ 1) :
    (∀ p ∈ (prune_features nFeatSets concIdxs minF minC utts).1,
      (if p.1.1 ∈ concIdxs then minC else minF) ≤ utts.flatten.count p.1) ∧
    ((prune_features nFeatSets concIdxs minF minC utts).1.map Prod.snd =
      List.range (prune_features nFeatSets concIdxs minF minC utts).1.length) ∧
    ((prune_features nFeatSets concIdxs minF minC utts).2.length =
      (prune_features nFeatSets concIdxs minF minC utts).1.length) ∧
    (∀ p ∈ (prune_features nFeatSets concIdxs minF minC utts).1,
      (prune_features nFeatSets concIdxs minF minC utts).2.getD p.2 (0, 0) = p.1) ∧
    (∀ i < (prune_features nFeatSets concIdxs minF minC utts).2.length,
      ((prune_features nFeatSets concIdxs minF minC utts).2.getD i (0, 0), i)
        ∈ (prune_features nFeatSets concIdxs minF minC utts).1) := by
  unfold prune_features
  refine ⟨?_, ?_, ?_, ?_, ?_⟩
  · intro p hp
    have h1 : p.1 ∈ ((featCounts utts).filter
        (fun p => !(isLowCount nFeatSets concIdxs minF minC p))).map Prod.fst :=
      assignIdxs_mem_fst hp
    rcases List.mem_map.mp h1 with ⟨q, hq, hq1⟩
    rcases List.mem_filter.mp hq with ⟨hqc, hqlow⟩
    have hcnt : q.2 = utts.flatten.count q.1 := by
      rcases List.mem_map.mp hqc with ⟨f, -, hf⟩
      rw [← hf]
    rw [Bool.not_eq_true'] at hqlow
    unfold isLowCount at hqlow
    rw [if_neg hn, decide_eq_false_iff_not, Nat.not_lt] at hqlow
    rw [← hq1, ← hcnt]
    exact hqlow
  · rw [assignIdxs_map_snd, assignIdxs_length, List.range_eq_range']
  · rw [assignIdxs_length]
  · intro p hp
    have h := assignIdxs_getD hp
    simpa using h.2.2
  · intro i hi
    have h := assignIdxs_of_getD (((featCounts utts).filter
      (fun p => !(isLowCount nFeatSets concIdxs minF minC p))).map Prod.fst) 0 i hi
    simpa using h

/-- Claim C6 witness: two training examples over two feature sets, with
the concrete set index 1, concrete threshold 1 and abstract threshold 2:
the invariant holds for the resulting registry. -/
theorem c6_prune_features_invariant_witness :
    ((2 : Nat) ≠ 1) ∧
    ((∀ p ∈ (prune_features 2 [1] 2 1 [[(0, 1), (1, 5)], [(0, 1)]]).1,
      (if p.1.1 ∈ [1] then 1 else 2) ≤ ([[(0, 1), (1, 5)], [(0, 1)]] : List (List Feat)).flatten.count p.1) ∧
    ((prune_features 2 [1] 2 1 [[(0, 1), (1, 5)], [(0, 1)]]).1.map Prod.snd =
      List.range (prune_features 2 [1] 2 1 [[(0, 1), (1, 5)], [(0, 1)]]).1.length) ∧
    ((prune_features 2 [1] 2 1 [[(0, 1), (1, 5)], [(0, 1)]]).2.length =
      (prune_features 2 [1] 2 1 [[(0, 1), (1, 5)], [(0, 1)]]).1.length) ∧
    (∀ p ∈ (prune_features 2 [1] 2 1 [[(0, 1), (1, 5)], [(0, 1)]]).1,
      (prune_features 2 [1] 2 1 [[(0, 1), (1, 5)], [(0, 1)]]).2.getD p.2 (0, 0) = p.1) ∧
    (∀ i < (prune_features 2 [1] 2 1 [[(0, 1), (1, 5)], [(0, 1)]]).2.length,
      ((prune_features 2 [1] 2 1 [[(0, 1), (1, 5)], [(0, 1)]]).2.getD i (0, 0), i)
        ∈ (prune_features 2 [1] 2 1 [[(0, 1), (1, 5)], [(0, 1)]]).1)) :=
  ⟨by decide, c6_prune_features_invariant 2 [1] 2 1 [[(0, 1), (1, 5)], [(0, 1)]] (by decide)⟩

/-- Claim C2: the claim says the scenario S1 pipeline works without a
Preprocessor.  It does not: with the default abstractions, extract_features
already raises AttributeError because _extract_feats_from_one calls
all_instantiations on abutt_hyp, which is None without preprocessing; and
even with abstracted feature sets out of the way, train unconditionally
iterates self.abutterances, which extract_features left as None.  The
pipeline therefore raises instead of producing a confusion network. -/
theorem c2_pipeline_fails_without_preprocessor :
    pipelineNoPreprocessing ["concrete", "abstract"] ["hello", "hello", "goodbye"] =
        Except.error PyError.attributeError ∧
      trainInstsStep (abutterancesAfterExtract false ["hello", "hello", "goodbye"]) =
        Except.error PyError.attributeError :=
  ⟨rfl, rfl⟩

/-- Unfolding groupRuns on the empty list. -/
theorem groupRuns_nil : groupRuns [] = [] := by rw [groupRuns]

/-- Unfolding groupRuns on a nonempty list: one group is the leading run
of the head probability. -/
theorem groupRuns_cons (p y : ℚ) (rest : List (ℚ × ℚ)) :
    groupRuns ((p, y) :: rest) =
      (p, 1 + (rest.takeWhile (fun d => decide (d.1 = p))).length,
        y + ((rest.takeWhile (fun d => decide (d.1 = p))).map Prod.snd).sum) ::
        groupRuns (rest.dropWhile (fun d => decide (d.1 = p))) := by
  rw [groupRuns]

/-- getD on the left part of an append. -/
theorem getD_append_left2 {α : Type} (l1 l2 : List α) (d : α) (n : Nat)
    (h : n < l1.length) :
    (l1 ++ l2).getD n d = l1.getD n d := by
  rw [List.getD_eq_getElem?_getD, List.getElem?_append_left h,
    ← List.getD_eq_getElem?_getD]

/-- getD distributes over the right part of an append. -/
theorem getD_append_right2 {α : Type} (l1 l2 : List α) (d : α) (n : Nat)
    (h : l1.length ≤ n) :
    (l1 ++ l2).getD n d = l2.getD (n - l1.length) d := by
  rw [List.getD_eq_getElem?_getD, List.getElem?_append_right h,
    ← List.getD_eq_getElem?_getD]

/-- groupRuns is empty exactly on the empty list. -/
theorem groupRuns_eq_nil_iff (l : List (ℚ × ℚ)) :
    groupRuns l = [] ↔ l = [] := by
  cases l with
  | nil => simp [groupRuns_nil]
  | cons d rest =>
      rcases d with ⟨p, y⟩
      rw [groupRuns_cons]
      simp

/-- The first cumulative length is the first group size. -/
theorem cumLen_cons_zero (g : ℚ × Nat × ℚ) (gs : List (ℚ × Nat × ℚ)) :
    cumLen (g :: gs) 0 = g.2.1 := by
  simp [cumLen]

/-- Later cumulative lengths add the first group size. -/
theorem cumLen_cons_succ (g : ℚ × Nat × ℚ) (gs : List (ℚ × Nat × ℚ)) (j : Nat) :
    cumLen (g :: gs) (j + 1) = g.2.1 + cumLen gs j := by
  simp [cumLen, List.take_succ_cons]

/-- boundaryErrors yields one error per group. -/
theorem boundaryErrors_length (gs : List (ℚ × Nat × ℚ)) :
    ∀ (tp fp fn : ℚ), (boundaryErrors tp fp fn gs).length = gs.length := by
  induction gs with
  | nil => intro tp fp fn; rfl
  | cons g gs ih =>
      intro tp fp fn
      rw [boundaryErrors, List.length_cons, List.length_cons, ih]

/-- listMin bounds every element from below. -/
theorem listMin_le {l : List ℚ} {e : ℚ} (he : e ∈ l) : listMin l ≤ e := by
  induction l with
  | nil => cases he
  | cons a rest ih =>
      cases rest with
      | nil =>
          rw [List.mem_singleton] at he
          rw [he]
          exact le_refl a
      | cons b rest2 =>
          show min a (listMin (b :: rest2)) ≤ e
          rcases List.mem_cons.mp he with he | he
          · rw [he]; exact min_le_left _ _
          · exact le_trans (min_le_right _ _) (ih he)

/-- listMin of a nonempty list is one of its elements. -/
theorem listMin_mem {l : List ℚ} (hl : l ≠ []) : listMin l ∈ l := by
  induction l with
  | nil => exact absurd rfl hl
  | cons a rest ih =>
      cases rest with
      | nil =>
          rw [List.mem_singleton]
          rfl
      | cons b rest2 =>
          show min a (listMin (b :: rest2)) ∈ a :: b :: rest2
          rcases le_total a (listMin (b :: rest2)) with h | h
          · rw [min_eq_left h]; exact List.mem_cons_self _ _
          · rw [min_eq_right h]
            exact List.mem_cons_of_mem _ (ih (by simp))

/-- listMin on a cons with nonempty tail. -/
theorem listMin_cons (e0 : ℚ) (E : List ℚ) (hE : E ≠ []) :
    listMin (e0 :: E) = min e0 (listMin E) := by
  cases E with
  | nil => exact absurd rfl hE
  | cons b rest => rfl

/-- The datum-level sweep equals the group-level sweep on the recorded
groups, given enough fuel. -/
theorem calibSweep_eq_gSweep :
    ∀ (fuel : Nat) (l : List (ℚ × ℚ)), l.length ≤ fuel →
      ∀ (idx : Nat) (tp fp fn best : ℚ) (split : Nat),
        calibSweep fuel l idx tp fp fn best split =
          gSweep (groupRuns l) idx tp fp fn best split := by
  intro fuel
  induction fuel with
  | zero =>
      intro l hl idx tp fp fn best split
      have hnil : l = [] := List.length_eq_zero.mp (Nat.le_zero.mp hl)
      subst hnil
      rw [groupRuns_nil]
      rfl
  | succ fuel ih =>
      intro l hl idx tp fp fn best split
      cases l with
      | nil => rw [groupRuns_nil]; rfl
      | cons d rest =>
          rcases d with ⟨p, y⟩
          have hdrop : (rest.dropWhile (fun d => decide (d.1 = p))).length ≤ fuel := by
            have h := (List.dropWhile_sublist (l := rest)
              (p := fun d => decide (d.1 = p))).length_le
            simp only [List.length_cons] at hl
            omega
          rw [groupRuns_cons]
          simp only [calibSweep, gSweep]
          have e1 : idx + (1 + (rest.takeWhile (fun d => decide (d.1 = p))).length) =
              idx + (rest.takeWhile (fun d => decide (d.1 = p))).length + 1 := by
            omega
          have e2 : idx + (1 + (rest.takeWhile (fun d => decide (d.1 = p))).length) - 1 =
              idx + (rest.takeWhile (fun d => decide (d.1 = p))).length := by
            omega
          rw [e2, e1]
          split_ifs with hc
          · exact ih _ hdrop _ _ _ _ _ _
          · exact ih _ hdrop _ _ _ _ _ _

/-- When no remaining boundary strictly improves on the best error, the
group sweep keeps the recorded split. -/
theorem gSweep_no_improve :
    ∀ (gs : List (ℚ × Nat × ℚ)) (idx : Nat) (tp fp fn best : ℚ) (split : Nat),
      (∀ e ∈ boundaryErrors tp fp fn gs, ¬e < best) →
      gSweep gs idx tp fp fn best split = split := by
  intro gs
  induction gs with
  | nil => intro idx tp fp fn best split h; rfl
  | cons g gs ih =>
      intro idx tp fp fn best split h
      rw [boundaryErrors] at h
      simp only [gSweep]
      rw [if_neg (h _ (List.mem_cons_self _ _))]
      exact ih _ _ _ _ _ _ (fun e he => h e (List.mem_cons_of_mem _ he))

/-- When some remaining boundary strictly improves on the best error,
the group sweep lands on the last datum of the earliest boundary with
minimal error. -/
theorem gSweep_argmin :
    ∀ (gs : List (ℚ × Nat × ℚ)) (idx : Nat) (tp fp fn best : ℚ) (split : Nat),
      (∃ e ∈ boundaryErrors tp fp fn gs, e < best) →
      gSweep gs idx tp fp fn best split =
        idx + cumLen gs ((boundaryErrors tp fp fn gs).indexOf
          (listMin (boundaryErrors tp fp fn gs))) - 1 := by
  intro gs
  induction gs with
  | nil =>
      rintro idx tp fp fn best split ⟨e, he, -⟩
      cases he
  | cons g gs ih =>
      rintro idx tp fp fn best split hex
      have hbe : boundaryErrors tp fp fn (g :: gs) =
          (1 - fscoreQ (tp - g.2.2) (fp - ((g.2.1 : ℚ) - g.2.2)) (fn + g.2.2)) ::
            boundaryErrors (tp - g.2.2) (fp - ((g.2.1 : ℚ) - g.2.2))
              (fn + g.2.2) gs := rfl
      rw [hbe] at hex ⊢
      simp only [gSweep]
      by_cases hc : (1 - fscoreQ (tp - g.2.2) (fp - ((g.2.1 : ℚ) - g.2.2))
          (fn + g.2.2)) < best
      · rw [if_pos hc]
        by_cases hrest : ∃ e ∈ boundaryErrors (tp - g.2.2)
            (fp - ((g.2.1 : ℚ) - g.2.2)) (fn + g.2.2) gs,
            e < 1 - fscoreQ (tp - g.2.2) (fp - ((g.2.1 : ℚ) - g.2.2)) (fn + g.2.2)
        · rw [ih _ _ _ _ _ _ hrest]
          obtain ⟨e, heE, helt⟩ := hrest
          have hEne : boundaryErrors (tp - g.2.2) (fp - ((g.2.1 : ℚ) - g.2.2))
              (fn + g.2.2) gs ≠ [] := List.ne_nil_of_mem heE
          have hmlt : listMin (boundaryErrors (tp - g.2.2)
              (fp - ((g.2.1 : ℚ) - g.2.2)) (fn + g.2.2) gs) <
              1 - fscoreQ (tp - g.2.2) (fp - ((g.2.1 : ℚ) - g.2.2)) (fn + g.2.2) :=
            lt_of_le_of_lt (listMin_le heE) helt
          have hmin : listMin ((1 - fscoreQ (tp - g.2.2)
              (fp - ((g.2.1 : ℚ) - g.2.2)) (fn + g.2.2)) ::
                boundaryErrors (tp - g.2.2) (fp - ((g.2.1 : ℚ) - g.2.2))
                  (fn + g.2.2) gs) =
              listMin (boundaryErrors (tp - g.2.2) (fp - ((g.2.1 : ℚ) - g.2.2))
                (fn + g.2.2) gs) := by
            rw [listMin_cons _ _ hEne, min_eq_right (le_of_lt hmlt)]
          rw [hmin, List.indexOf_cons,
            show ((1 - fscoreQ (tp - g.2.2) (fp - ((g.2.1 : ℚ) - g.2.2))
                (fn + g.2.2)) ==
              (listMin (boundaryErrors (tp - g.2.2)
                (fp - ((g.2.1 : ℚ) - g.2.2)) (fn + g.2.2) gs))) = false from
              beq_eq_false_iff_ne.mpr (ne_of_gt hmlt)]
          rw [cond_false, cumLen_cons_succ]
          omega
        · push_neg at hrest
          rw [gSweep_no_improve _ _ _ _ _ _ _
            (fun e he => not_lt.mpr (hrest e he))]
          have hmin0 : listMin ((1 - fscoreQ (tp - g.2.2)
              (fp - ((g.2.1 : ℚ) - g.2.2)) (fn + g.2.2)) ::
                boundaryErrors (tp - g.2.2) (fp - ((g.2.1 : ℚ) - g.2.2))
                  (fn + g.2.2) gs) =
              1 - fscoreQ (tp - g.2.2) (fp - ((g.2.1 : ℚ) - g.2.2)) (fn + g.2.2) := by
            cases hEcase : boundaryErrors (tp - g.2.2)
                (fp - ((g.2.1 : ℚ) - g.2.2)) (fn + g.2.2) gs with
            | nil => rfl
            | cons b rest2 =>
                rw [listMin_cons _ _ (by simp)]
                refine min_eq_left ?_
                have hm : listMin (b :: rest2) ∈ boundaryErrors (tp - g.2.2)
                    (fp - ((g.2.1 : ℚ) - g.2.2)) (fn + g.2.2) gs := by
                  rw [hEcase]
                  exact listMin_mem (by simp)
                exact hrest _ hm
          rw [hmin0, List.indexOf_cons, beq_self_eq_true, cond_true,
            cumLen_cons_zero]
      · rw [if_neg hc]
        have hrest : ∃ e ∈ boundaryErrors (tp - g.2.2)
            (fp - ((g.2.1 : ℚ) - g.2.2)) (fn + g.2.2) gs, e < best := by
          obtain ⟨e, he, helt⟩ := hex
          rcases List.mem_cons.mp he with he | he
          · exact absurd (he ▸ helt) hc
          · exact ⟨e, he, helt⟩
        rw [ih _ _ _ _ _ _ hrest]
        obtain ⟨e, heE, helt⟩ := hrest
        have hEne : boundaryErrors (tp - g.2.2) (fp - ((g.2.1 : ℚ) - g.2.2))
            (fn + g.2.2) gs ≠ [] := List.ne_nil_of_mem heE
        have hmlt : listMin (boundaryErrors (tp - g.2.2)
            (fp - ((g.2.1 : ℚ) - g.2.2)) (fn + g.2.2) gs) <
            1 - fscoreQ (tp - g.2.2) (fp - ((g.2.1 : ℚ) - g.2.2)) (fn + g.2.2) := by
          have h1 : listMin (boundaryErrors (tp - g.2.2)
              (fp - ((g.2.1 : ℚ) - g.2.2)) (fn + g.2.2) gs) < best :=
            lt_of_le_of_lt (listMin_le heE) helt
          exact lt_of_lt_of_le h1 (not_lt.mp hc)
        have hmin : listMin ((1 - fscoreQ (tp - g.2.2)
            (fp - ((g.2.1 : ℚ) - g.2.2)) (fn + g.2.2)) ::
              boundaryErrors (tp - g.2.2) (fp - ((g.2.1 : ℚ) - g.2.2))
                (fn + g.2.2) gs) =
            listMin (boundaryErrors (tp - g.2.2) (fp - ((g.2.1 : ℚ) - g.2.2))
              (fn + g.2.2) gs) := by
          rw [listMin_cons _ _ hEne, min_eq_right (le_of_lt hmlt)]
        rw [hmin, List.indexOf_cons,
          show ((1 - fscoreQ (tp - g.2.2) (fp - ((g.2.1 : ℚ) - g.2.2))
              (fn + g.2.2)) ==
            (listMin (boundaryErrors (tp - g.2.2)
              (fp - ((g.2.1 : ℚ) - g.2.2)) (fn + g.2.2) gs))) = false from
            beq_eq_false_iff_ne.mpr (ne_of_gt hmlt)]
        rw [cond_false, cumLen_cons_succ]
        omega

/-- Every element of a leading run shares the run probability. -/
theorem takeWhile_fst {p : ℚ} {rest : List (ℚ × ℚ)} {x : ℚ × ℚ}
    (h : x ∈ rest.takeWhile (fun d => decide (d.1 = p))) : x.1 = p := by
  have h2 := List.mem_takeWhile_imp h
  simpa using h2

/-- The first recorded group carries the probability of the first
datum. -/
theorem groupRuns_head_fst (l : List (ℚ × ℚ)) (hl : l ≠ []) :
    ((groupRuns l).getD 0 (0, 0, 0)).1 = (l.getD 0 (0, 0)).1 := by
  cases l with
  | nil => exact absurd rfl hl
  | cons d r =>
      rcases d with ⟨p, y⟩
      rw [groupRuns_cons]
      rfl

/-- Locating groups inside the sorted data: the cumulative length of
the groups up to j stays in range, the datum just before the boundary
carries the probability of group j, the datum at the boundary carries
the probability of group j+1 when that group exists, and the boundary
after the last group sits at the end of the data. -/
theorem groupRuns_locate :
    ∀ (n : Nat) (l : List (ℚ × ℚ)), l.length ≤ n →
      ∀ j, j < (groupRuns l).length →
        (1 ≤ cumLen (groupRuns l) j ∧ cumLen (groupRuns l) j ≤ l.length) ∧
        (l.getD (cumLen (groupRuns l) j - 1) (0, 0)).1 =
          ((groupRuns l).getD j (0, 0, 0)).1 ∧
        (j + 1 < (groupRuns l).length →
          cumLen (groupRuns l) j < l.length ∧
          (l.getD (cumLen (groupRuns l) j) (0, 0)).1 =
            ((groupRuns l).getD (j + 1) (0, 0, 0)).1) ∧
        (j + 1 = (groupRuns l).length → cumLen (groupRuns l) j = l.length) := by
  intro n
  induction n with
  | zero =>
      intro l hl j hj
      have hnil : l = [] := List.length_eq_zero.mp (Nat.le_zero.mp hl)
      subst hnil
      rw [groupRuns_nil] at hj
      exact absurd hj (by simp)
  | succ n ih =>
      intro l hl j hj
      cases l with
      | nil =>
          rw [groupRuns_nil] at hj
          exact absurd hj (by simp)
      | cons d rest =>
          rcases d with ⟨p, y⟩
          rw [groupRuns_cons] at hj ⊢
          set T := rest.takeWhile (fun d => decide (d.1 = p)) with hT
          set R := rest.dropWhile (fun d => decide (d.1 = p)) with hR
          have hsplit : T ++ R = rest := List.takeWhile_append_dropWhile _ _
          have hlenrest : T.length + R.length = rest.length := by
            conv_rhs => rw [← hsplit]
            rw [List.length_append]
          have hdroplen : R.length ≤ n := by
            have h2 := (List.dropWhile_sublist (l := rest)
              (p := fun d => decide (d.1 = p))).length_le
            rw [← hR] at h2
            simp only [List.length_cons] at hl
            omega
          have hshift : ∀ t, ((p, y) :: rest).getD (1 + T.length + t) (0, 0) =
              R.getD t (0, 0) := by
            intro t
            have hidx : 1 + T.length + t = (T.length + t) + 1 := by omega
            rw [hidx, List.getD_cons_succ, ← hsplit,
              getD_append_right2 _ _ _ _ (Nat.le_add_right _ _)]
            have hidx2 : T.length + t - T.length = t := by omega
            rw [hidx2]
          cases j with
          | zero =>
              rw [cumLen_cons_zero]
              have hk : ((p, 1 + T.length, y + (T.map Prod.snd).sum) : ℚ × Nat × ℚ).2.1 =
                  1 + T.length := rfl
              rw [hk]
              refine ⟨⟨by omega, ?_⟩, ?_, ?_, ?_⟩
              · simp only [List.length_cons]
                omega
              · show (((p, y) :: rest).getD (1 + T.length - 1) (0, 0)).1 = p
                have hidx : 1 + T.length - 1 = T.length := by omega
                rw [hidx]
                cases hrun : T with
                | nil => rw [List.length_nil, List.getD_cons_zero]
                | cons r0 run2 =>
                    rw [List.length_cons, List.getD_cons_succ, ← hsplit, hrun,
                      getD_append_left2 _ _ _ _ (by rw [List.length_cons]; omega)]
                    have hmem : (r0 :: run2).getD run2.length (0, 0) ∈ r0 :: run2 := by
                      rw [List.getD_eq_getElem _ _ (by rw [List.length_cons]; omega)]
                      exact List.getElem_mem _
                    have hmem2 : (r0 :: run2).getD run2.length (0, 0) ∈
                        rest.takeWhile (fun d => decide (d.1 = p)) := by
                      rw [← hT, hrun]
                      exact hmem
                    exact takeWhile_fst hmem2
              · intro hlt
                rw [List.length_cons] at hlt
                have hgs2 : groupRuns R ≠ [] := by
                  intro hempty
                  rw [hempty] at hlt
                  simp at hlt
                have hrest2 : R ≠ [] := by
                  intro hempty
                  exact hgs2 (by rw [hempty, groupRuns_nil])
                have hrest2len : 1 ≤ R.length := by
                  cases hcase : R with
                  | nil => exact absurd hcase hrest2
                  | cons a b => rw [List.length_cons]; omega
                constructor
                · simp only [List.length_cons]
                  omega
                · have hsh := hshift 0
                  rw [show 1 + T.length = 1 + T.length + 0 from by omega, hsh,
                    List.getD_cons_succ]
                  show (R.getD 0 (0, 0)).1 = ((groupRuns R).getD 0 (0, 0, 0)).1
                  exact (groupRuns_head_fst _ hrest2).symm
              · intro heq
                rw [List.length_cons] at heq
                have hgs2 : groupRuns R = [] := by
                  have hz : (groupRuns R).length = 0 := by omega
                  exact List.length_eq_zero.mp hz
                have hrest2 : R = [] := (groupRuns_eq_nil_iff _).mp hgs2
                rw [hrest2, List.length_nil] at hlenrest
                simp only [List.length_cons]
                omega
          | succ j2 =>
              rw [List.length_cons] at hj
              have hj2 : j2 < (groupRuns R).length := by omega
              obtain ⟨⟨hc1, hcle⟩, hgetj, hnext, hlast⟩ := ih R hdroplen j2 hj2
              rw [cumLen_cons_succ]
              have hk : ((p, 1 + T.length, y + (T.map Prod.snd).sum) : ℚ × Nat × ℚ).2.1 =
                  1 + T.length := rfl
              rw [hk]
              refine ⟨⟨by omega, ?_⟩, ?_, ?_, ?_⟩
              · simp only [List.length_cons]
                omega
              · have hidx : 1 + T.length + cumLen (groupRuns R) j2 - 1 =
                    1 + T.length + (cumLen (groupRuns R) j2 - 1) := by omega
                rw [hidx, hshift, List.getD_cons_succ]
                exact hgetj
              · intro hlt
                rw [List.length_cons] at hlt
                obtain ⟨hlt2, hget2⟩ := hnext (by omega)
                constructor
                · simp only [List.length_cons]
                  omega
                · rw [hshift, List.getD_cons_succ]
                  exact hget2
              · intro heq
                rw [List.length_cons] at heq
                have hfin := hlast (by omega)
                simp only [List.length_cons]
                omega

/-- Membership in dedupFirstAux: the kept elements are exactly the list
elements not already seen. -/
theorem mem_dedupFirstAux {α : Type} [DecidableEq α] {x : α} (seen l : List α) :
    x ∈ dedupFirstAux seen l ↔ (x ∈ l ∧ ¬x ∈ seen) := by
  induction l generalizing seen with
  | nil => simp [dedupFirstAux]
  | cons a rest ih =>
      by_cases ha : a ∈ seen
      · rw [dedupFirstAux, if_pos ha, ih, List.mem_cons]
        constructor
        · rintro ⟨hx, hs⟩; exact ⟨Or.inr hx, hs⟩
        · rintro ⟨hx | hx, hs⟩
          · subst hx; exact absurd ha hs
          · exact ⟨hx, hs⟩
      · rw [dedupFirstAux, if_neg ha, List.mem_cons, ih, List.mem_cons]
        constructor
        · rintro (hx | ⟨hx, hs⟩)
          · subst hx; exact ⟨Or.inl rfl, ha⟩
          · refine ⟨Or.inr hx, fun hc => hs ?_⟩
            exact List.mem_append.mpr (Or.inl hc)
        · rintro ⟨hx | hx, hs⟩
          · exact Or.inl hx
          · by_cases hxa : x = a
            · exact Or.inl hxa
            · refine Or.inr ⟨hx, fun hc => ?_⟩
              rcases List.mem_append.mp hc with hc | hc
              · exact hs hc
              · exact hxa (List.mem_singleton.mp hc)

/-- dedupFirst keeps exactly the elements of the list. -/
theorem mem_dedupFirst {α : Type} [DecidableEq α] {x : α} (l : List α) :
    x ∈ dedupFirst l ↔ x ∈ l := by
  rw [dedupFirst, mem_dedupFirstAux]
  simp

/-- dedupFirstAux never repeats an element. -/
theorem nodup_dedupFirstAux {α : Type} [DecidableEq α] (seen l : List α) :
    (dedupFirstAux seen l).Nodup := by
  induction l generalizing seen with
  | nil => simp [dedupFirstAux]
  | cons a rest ih =>
      by_cases ha : a ∈ seen
      · rw [dedupFirstAux, if_pos ha]; exact ih seen
      · rw [dedupFirstAux, if_neg ha]
        refine List.nodup_cons.mpr ⟨fun hmem => ?_, ih _⟩
        have h := (mem_dedupFirstAux _ _).mp hmem
        exact h.2 (List.mem_append.mpr (Or.inr (List.mem_singleton.mpr rfl)))

/-- dedupFirst never repeats an element. -/
theorem nodup_dedupFirst {α : Type} [DecidableEq α] (l : List α) :
    (dedupFirst l).Nodup := nodup_dedupFirstAux [] l

/-- A duplicate-free list of integers whose members are exactly 0 and 1
is either [0, 1] or [1, 0]. -/
theorem nodup_mem_pair {l : List ℤ} (hnd : l.Nodup)
    (hmem : ∀ x : ℤ, x ∈ l ↔ (x = 0 ∨ x = 1)) : l = [0, 1] ∨ l = [1, 0] := by
  cases l with
  | nil => exact absurd ((hmem 0).mpr (Or.inl rfl)) (by simp)
  | cons x rest =>
      cases rest with
      | nil =>
          have h0 := List.mem_singleton.mp ((hmem 0).mpr (Or.inl rfl))
          have h1 := List.mem_singleton.mp ((hmem 1).mpr (Or.inr rfl))
          rw [← h0] at h1
          exact absurd h1 (by decide)
      | cons y rest2 =>
          have hx : x = 0 ∨ x = 1 := (hmem x).mp (by simp)
          have hy : y = 0 ∨ y = 1 := (hmem y).mp (by simp)
          have hxy : x ≠ y := by
            intro h
            rw [List.nodup_cons] at hnd
            exact hnd.1 (by simp [h])
          have hrest : rest2 = [] := by
            cases rest2 with
            | nil => rfl
            | cons z rest3 =>
                have hz : z = 0 ∨ z = 1 := (hmem z).mp (by simp)
                rw [List.nodup_cons, List.nodup_cons] at hnd
                exfalso
                rcases hx with hx | hx <;> rcases hy with hy | hy
                · exact hxy (hx.trans hy.symm)
                · subst hx; subst hy
                  rcases hz with hz | hz <;> subst hz
                  · exact hnd.1 (by simp)
                  · exact hnd.2.1 (by simp)
                · subst hx; subst hy
                  rcases hz with hz | hz <;> subst hz
                  · exact hnd.2.1 (by simp)
                  · exact hnd.1 (by simp)
                · exact hxy (hx.trans hy.symm)
          subst hrest
          rcases hx with hx | hx <;> rcases hy with hy | hy
          · exact absurd (hx.trans hy.symm) hxy
          · exact Or.inl (by rw [hx, hy])
          · exact Or.inr (by rw [hx, hy])
          · exact absurd (hx.trans hy.symm) hxy

/-- With both labels present and all labels binary, the label groups of
balance_data are 0 and 1 in one of the two orders. -/
theorem dedupFirst_binary (outputs : List ℤ)
    (hall : ∀ y ∈ outputs, y = 0 ∨ y = 1)
    (h0 : (0 : ℤ) ∈ outputs) (h1 : (1 : ℤ) ∈ outputs) :
    dedupFirst outputs = [0, 1] ∨ dedupFirst outputs = [1, 0] := by
  refine nodup_mem_pair (nodup_dedupFirst outputs) fun x => ?_
  rw [mem_dedupFirst]
  constructor
  · exact fun hx => hall x hx
  · rintro (h | h) <;> subst h <;> assumption

/-- The label group of y has as many members as y has occurrences. -/
theorem labelIdxsFrom_length (y : ℤ) (l : List ℤ) (i : Nat) :
    (labelIdxsFrom y l i).length = l.count y := by
  induction l generalizing i with
  | nil => rfl
  | cons z rest ih =>
      by_cases hz : z = y
      · rw [labelIdxsFrom, if_pos hz, List.length_cons, ih, List.count_cons]
        simp [hz]
      · rw [labelIdxsFrom, if_neg hz, ih, List.count_cons]
        simp [hz]

/-- Every index in a label group points at a row with that label. -/
theorem labelIdxsFrom_spec (y : ℤ) (l : List ℤ) (i j : Nat)
    (h : j ∈ labelIdxsFrom y l i) :
    i ≤ j ∧ j - i < l.length ∧ l.getD (j - i) 7 = y := by
  induction l generalizing i with
  | nil => cases h
  | cons z rest ih =>
      by_cases hz : z = y
      · rw [labelIdxsFrom, if_pos hz] at h
        rcases List.mem_cons.mp h with h | h
        · subst h
          exact ⟨Nat.le_refl _, by simp, by simpa using hz⟩
        · obtain ⟨h1, h2, h3⟩ := ih (i + 1) h
          refine ⟨Nat.le_of_succ_le h1, ?_, ?_⟩
          · simp only [List.length_cons]; omega
          · have harith : j - i = (j - (i + 1)) + 1 := by omega
            rw [harith]; simpa using h3
      · rw [labelIdxsFrom, if_neg hz] at h
        obtain ⟨h1, h2, h3⟩ := ih (i + 1) h
        refine ⟨Nat.le_of_succ_le h1, ?_, ?_⟩
        · simp only [List.length_cons]; omega
        · have harith : j - i = (j - (i + 1)) + 1 := by omega
          rw [harith]; simpa using h3

/-- Indices in labelIdxs are in range and select a row labelled y. -/
theorem labelIdxs_spec (outputs : List ℤ) (y : ℤ) (j : Nat)
    (h : j ∈ labelIdxs outputs y) :
    j < outputs.length ∧ outputs.getD j 7 = y := by
  obtain ⟨-, h2, h3⟩ := labelIdxsFrom_spec y outputs 0 j h
  constructor
  · simpa using h2
  · simpa using h3

/-- The label group is as long as the label count. -/
theorem labelIdxs_length (outputs : List ℤ) (y : ℤ) :
    (labelIdxs outputs y).length = outputs.count y :=
  labelIdxsFrom_length y outputs 0

/-- A label that occurs has a nonempty group. -/
theorem labelIdxs_pos (outputs : List ℤ) (y : ℤ) (h : y ∈ outputs) :
    0 < (labelIdxs outputs y).length := by
  rw [labelIdxs_length]
  exact List.count_pos_iff.mpr h

/-- The labels of the rows drawn for label y are all y. -/
theorem augmentForLabel_map_snd {ι : Type} (rand : Nat → Nat) (d0 : ι)
    (inputs : List ι) (outputs : List ℤ) (M s : Nat) (y : ℤ) :
    (augmentForLabel rand d0 inputs outputs M s y).map Prod.snd =
      List.replicate (M - outputs.count y) y := by
  unfold augmentForLabel
  rw [List.map_map]
  have hcomp : (Prod.snd ∘ fun k : Nat =>
      (inputs.getD ((labelIdxs outputs y).getD
        (rand (s + k) % (labelIdxs outputs y).length) 0) d0, y)) =
        fun _ : Nat => y := rfl
  rw [hcomp, List.map_const', List.length_range, labelIdxs_length]

/-- The number of rows drawn for label y. -/
theorem augmentForLabel_length {ι : Type} (rand : Nat → Nat) (d0 : ι)
    (inputs : List ι) (outputs : List ℤ) (M s : Nat) (y : ℤ) :
    (augmentForLabel rand d0 inputs outputs M s y).length =
      M - outputs.count y := by
  unfold augmentForLabel
  rw [List.length_map, List.length_range, labelIdxs_length]

/-- Every row drawn for label y copies an original row labelled y. -/
theorem augmentForLabel_mem {ι : Type} (rand : Nat → Nat) (d0 : ι)
    (inputs : List ι) (outputs : List ℤ) (M s : Nat) (y : ℤ)
    (hy : y ∈ outputs) (q : ι × ℤ)
    (hq : q ∈ augmentForLabel rand d0 inputs outputs M s y) :
    ∃ j, j < outputs.length ∧ outputs.getD j 7 = q.2 ∧
      q.1 = inputs.getD j d0 := by
  unfold augmentForLabel at hq
  rcases List.mem_map.mp hq with ⟨k, -, hk⟩
  have hlt : rand (s + k) % (labelIdxs outputs y).length <
      (labelIdxs outputs y).length :=
    Nat.mod_lt _ (labelIdxs_pos outputs y hy)
  have hjm : (labelIdxs outputs y).getD
      (rand (s + k) % (labelIdxs outputs y).length) 0 ∈ labelIdxs outputs y := by
    rw [List.getD_eq_getElem _ _ hlt]
    exact List.getElem_mem hlt
  obtain ⟨h1, h2⟩ := labelIdxs_spec outputs y _ hjm
  refine ⟨_, h1, ?_, ?_⟩
  · rw [← hk]; exact h2
  · rw [← hk]

/-- Every row drawn by the balancing loop copies an original row with
the same label. -/
theorem augmentAll_mem {ι : Type} (rand : Nat → Nat) (d0 : ι)
    (inputs : List ι) (outputs : List ℤ) (M : Nat) (labels : List ℤ)
    (hlab : ∀ y ∈ labels, y ∈ outputs) :
    ∀ (s : Nat), ∀ q ∈ augmentAll rand d0 inputs outputs M labels s,
      ∃ j, j < outputs.length ∧ outputs.getD j 7 = q.2 ∧
        q.1 = inputs.getD j d0 := by
  induction labels with
  | nil => intro s q hq; cases hq
  | cons y rest ih =>
      intro s q hq
      rw [augmentAll] at hq
      rcases List.mem_append.mp hq with hq | hq
      · exact augmentForLabel_mem rand d0 inputs outputs M s y
          (hlab y (List.mem_cons_self y rest)) q hq
      · exact ih (fun z hz => hlab z (List.mem_cons_of_mem y hz)) _ q hq

/-- The labels drawn when the groups are [A, B]. -/
theorem balanceNewPairs_two {ι : Type} (rand : Nat → Nat) (d0 : ι)
    (inputs : List ι) (outputs : List ℤ) (A B : ℤ)
    (hlab : dedupFirst outputs = [A, B]) :
    (balanceNewPairs rand d0 inputs outputs).map Prod.snd =
      List.replicate (maxCountOf outputs - outputs.count A) A ++
        List.replicate (maxCountOf outputs - outputs.count B) B := by
  unfold balanceNewPairs
  rw [hlab, augmentAll, augmentAll, augmentAll, List.append_nil,
    List.map_append, augmentForLabel_map_snd, augmentForLabel_map_snd]

/-- The largest group size when the groups are [A, B]. -/
theorem maxCountOf_two (outputs : List ℤ) (A B : ℤ)
    (hlab : dedupFirst outputs = [A, B]) :
    maxCountOf outputs = max (outputs.count A) (outputs.count B) := by
  unfold maxCountOf
  rw [hlab]
  simp only [List.map_cons, List.map_nil, labelIdxs_length, List.foldl_cons,
    List.foldl_nil]
  rw [Nat.zero_max]

/-- balance_data always returns the original rows followed by the drawn
rows (the empty-draw branch returns the same value). -/
theorem balance_data_eq {ι : Type} (rand : Nat → Nat) (d0 : ι)
    (inputs : List ι) (outputs : List ℤ) :
    balance_data rand d0 inputs outputs =
      (inputs ++ (balanceNewPairs rand d0 inputs outputs).map Prod.fst,
       outputs ++ (balanceNewPairs rand d0 inputs outputs).map Prod.snd) := by
  unfold balance_data
  split_ifs with h
  · rw [List.isEmpty_iff] at h
    rw [h]
    simp
  · rfl

/-- A binary label list is as long as its two label counts combined. -/
theorem length_eq_counts (outputs : List ℤ)
    (hall : ∀ y ∈ outputs, y = 0 ∨ y = 1) :
    outputs.length = outputs.count 0 + outputs.count 1 := by
  induction outputs with
  | nil => rfl
  | cons z rest ih =>
      have hz := hall z (List.mem_cons_self z rest)
      have hrest := ih fun y hy => hall y (List.mem_cons_of_mem z hy)
      rcases hz with hz | hz <;> subst hz <;>
        simp [List.count_cons, hrest] <;> omega

/-- getD through a map, at an index in range. -/
theorem getD_map_at {α β : Type} (f : α → β) (l : List α) (d : β) (i : Nat)
    (h : i < l.length) :
    (l.map f).getD i d = f (l.get ⟨i, h⟩) := by
  rw [List.getD_eq_getElem _ _ (by rw [List.length_map]; exact h),
    List.getElem_map, List.get_eq_getElem]

/-- Claim C7 counterexample: the claim quantifies over every pair with
binary outputs, but on the single-class output list [0, 0] balance_data
returns the data unchanged, so the two label counts differ (two rows
with label 0, none with label 1). -/
theorem c7_single_class_not_balanced :
    (balance_data (fun _ => 0) (0 : Nat) [10, 20] [0, 0]).2.count 0 = 2 ∧
    (balance_data (fun _ => 0) (0 : Nat) [10, 20] [0, 0]).2.count 1 = 0 ∧
    ¬((balance_data (fun _ => 0) (0 : Nat) [10, 20] [0, 0]).2.count 0 =
      (balance_data (fun _ => 0) (0 : Nat) [10, 20] [0, 0]).2.count 1) := by
  decide

/-- Claim C7 as amended: for every pair (inputs, outputs) with labels in
{0, 1} in which both labels occur, balance_data returns a dataset in
which the rows labelled 0 and the rows labelled 1 each number the larger
input class count, the total row count is twice that count, the original
rows are kept as a prefix, and every added row copies some original row
with the same label (the additions are drawn with replacement from the
minority class, via the explicit choice function rand). -/
theorem c7_balance_data_balances {ι : Type} (rand : Nat → Nat) (d0 : ι)
    (inputs : List ι) (outputs : List ℤ)
    (hlen : inputs.length = outputs.length)
    (hbin : ∀ y ∈ outputs, y = 0 ∨ y = 1)
    (h0 : (0 : ℤ) ∈ outputs) (h1 : (1 : ℤ) ∈ outputs) :
    ((balance_data rand d0 inputs outputs).2.count 0 =
        max (outputs.count 0) (outputs.count 1)) ∧
    ((balance_data rand d0 inputs outputs).2.count 1 =
        max (outputs.count 0) (outputs.count 1)) ∧
    ((balance_data rand d0 inputs outputs).1.length =
        2 * max (outputs.count 0) (outputs.count 1)) ∧
    ((balance_data rand d0 inputs outputs).1.take inputs.length = inputs) ∧
    ((balance_data rand d0 inputs outputs).2.take outputs.length = outputs) ∧
    (∀ k, outputs.length ≤ k →
      k < (balance_data rand d0 inputs outputs).2.length →
      ∃ j, j < outputs.length ∧
        outputs.getD j 7 = (balance_data rand d0 inputs outputs).2.getD k 7 ∧
        (balance_data rand d0 inputs outputs).1.getD k d0 = inputs.getD j d0) := by
  have heq := balance_data_eq rand d0 inputs outputs
  have h2 : (balance_data rand d0 inputs outputs).2 =
      outputs ++ (balanceNewPairs rand d0 inputs outputs).map Prod.snd := by
    rw [heq]
  have h1f : (balance_data rand d0 inputs outputs).1 =
      inputs ++ (balanceNewPairs rand d0 inputs outputs).map Prod.fst := by
    rw [heq]
  have hsnd : (balanceNewPairs rand d0 inputs outputs).map Prod.snd =
      List.replicate (maxCountOf outputs - outputs.count 0) 0 ++
        List.replicate (maxCountOf outputs - outputs.count 1) 1 ∨
      (balanceNewPairs rand d0 inputs outputs).map Prod.snd =
      List.replicate (maxCountOf outputs - outputs.count 1) 1 ++
        List.replicate (maxCountOf outputs - outputs.count 0) 0 := by
    rcases dedupFirst_binary outputs hbin h0 h1 with hl | hl
    · exact Or.inl (balanceNewPairs_two rand d0 inputs outputs 0 1 hl)
    · exact Or.inr (balanceNewPairs_two rand d0 inputs outputs 1 0 hl)
  have hMeq : maxCountOf outputs = max (outputs.count 0) (outputs.count 1) := by
    rcases dedupFirst_binary outputs hbin h0 h1 with hl | hl
    · exact maxCountOf_two outputs 0 1 hl
    · rw [maxCountOf_two outputs 1 0 hl, Nat.max_comm]
  have hM0 : outputs.count 0 ≤ maxCountOf outputs := by
    rw [hMeq]; exact Nat.le_max_left _ _
  have hM1 : outputs.count 1 ≤ maxCountOf outputs := by
    rw [hMeq]; exact Nat.le_max_right _ _
  have hcnt0 : ((balanceNewPairs rand d0 inputs outputs).map Prod.snd).count 0 =
      maxCountOf outputs - outputs.count 0 := by
    rcases hsnd with hs | hs <;>
      rw [hs, List.count_append, List.count_replicate, List.count_replicate] <;>
      simp
  have hcnt1 : ((balanceNewPairs rand d0 inputs outputs).map Prod.snd).count 1 =
      maxCountOf outputs - outputs.count 1 := by
    rcases hsnd with hs | hs <;>
      rw [hs, List.count_append, List.count_replicate, List.count_replicate] <;>
      simp
  have hlen2 : (balanceNewPairs rand d0 inputs outputs).length =
      (maxCountOf outputs - outputs.count 0) +
        (maxCountOf outputs - outputs.count 1) := by
    have hm : (balanceNewPairs rand d0 inputs outputs).length =
        ((balanceNewPairs rand d0 inputs outputs).map Prod.snd).length :=
      (List.length_map _ _).symm
    rcases hsnd with hs | hs
    · rw [hm, hs]
      simp only [List.length_append, List.length_replicate]
      try omega
    · rw [hm, hs]
      simp only [List.length_append, List.length_replicate]
      try omega
  have hlc := length_eq_counts outputs hbin
  refine ⟨?_, ?_, ?_, ?_, ?_, ?_⟩
  · rw [h2, List.count_append, hcnt0, ← hMeq]; omega
  · rw [h2, List.count_append, hcnt1, ← hMeq]; omega
  · rw [h1f, List.length_append, List.length_map, hlen, hlen2, ← hMeq]; omega
  · rw [h1f, List.take_left]
  · rw [h2, List.take_left]
  · intro k hk1 hk2
    rw [h2, List.length_append, List.length_map] at hk2
    have hkl : k - outputs.length <
        (balanceNewPairs rand d0 inputs outputs).length := by omega
    have hqmem : (balanceNewPairs rand d0 inputs outputs).get
        ⟨k - outputs.length, hkl⟩ ∈ balanceNewPairs rand d0 inputs outputs :=
      List.get_mem _ _ hkl
    obtain ⟨j, hj1, hj2, hj3⟩ := augmentAll_mem rand d0 inputs outputs
      (maxCountOf outputs) (dedupFirst outputs)
      (fun y hy => (mem_dedupFirst outputs).mp hy) 0 _ hqmem
    have key2 : (balance_data rand d0 inputs outputs).2.getD k 7 =
        ((balanceNewPairs rand d0 inputs outputs).get
          ⟨k - outputs.length, hkl⟩).2 := by
      rw [h2, getD_append_right2 _ _ _ _ hk1, getD_map_at Prod.snd _ 7 _ hkl]
    have hk1b : inputs.length ≤ k := by rw [hlen]; exact hk1
    have key1 : (balance_data rand d0 inputs outputs).1.getD k d0 =
        ((balanceNewPairs rand d0 inputs outputs).get
          ⟨k - outputs.length, hkl⟩).1 := by
      rw [h1f, getD_append_right2 _ _ _ _ hk1b, hlen,
        getD_map_at Prod.fst _ d0 _ hkl]
    refine ⟨j, hj1, ?_, ?_⟩
    · rw [key2]; exact hj2
    · rw [key1]; exact hj3

/-- Claim C7 witness: scenario S6.  Balancing y = [0, 0, 0, 1] yields
three rows of each label, six rows in total, with the original rows as a
prefix and every added row copied from a row labelled like it. -/
theorem c7_balance_data_balances_witness :
    (([1, 2, 3, 4] : List Nat).length = ([0, 0, 0, 1] : List ℤ).length) ∧
    ((balance_data (fun _ => 0) (0 : Nat) [1, 2, 3, 4] [0, 0, 0, 1]).2.count 0 =
        max (([0, 0, 0, 1] : List ℤ).count 0) (([0, 0, 0, 1] : List ℤ).count 1)) ∧
    ((balance_data (fun _ => 0) (0 : Nat) [1, 2, 3, 4] [0, 0, 0, 1]).2.count 1 =
        max (([0, 0, 0, 1] : List ℤ).count 0) (([0, 0, 0, 1] : List ℤ).count 1)) ∧
    ((balance_data (fun _ => 0) (0 : Nat) [1, 2, 3, 4] [0, 0, 0, 1]).1.length =
        2 * max (([0, 0, 0, 1] : List ℤ).count 0) (([0, 0, 0, 1] : List ℤ).count 1)) ∧
    ((balance_data (fun _ => 0) (0 : Nat) [1, 2, 3, 4] [0, 0, 0, 1]).1.take 4 =
        [1, 2, 3, 4]) ∧
    ((balance_data (fun _ => 0) (0 : Nat) [1, 2, 3, 4] [0, 0, 0, 1]).2.take 4 =
        [0, 0, 0, 1]) ∧
    (∀ k, ([0, 0, 0, 1] : List ℤ).length ≤ k →
      k < (balance_data (fun _ => 0) (0 : Nat) [1, 2, 3, 4] [0, 0, 0, 1]).2.length →
      ∃ j, j < ([0, 0, 0, 1] : List ℤ).length ∧
        ([0, 0, 0, 1] : List ℤ).getD j 7 =
          (balance_data (fun _ => 0) (0 : Nat) [1, 2, 3, 4] [0, 0, 0, 1]).2.getD k 7 ∧
        (balance_data (fun _ => 0) (0 : Nat) [1, 2, 3, 4] [0, 0, 0, 1]).1.getD k 0 =
          ([1, 2, 3, 4] : List Nat).getD j 0) := by
  have h := c7_balance_data_balances (fun _ => 0) (0 : Nat) [1, 2, 3, 4]
    [0, 0, 0, 1] (by decide) (by decide) (by decide) (by decide)
  exact ⟨by decide, h.1, h.2.1, h.2.2.1, h.2.2.2.1, h.2.2.2.2.1, h.2.2.2.2.2⟩

/-- zipWith over two maps of the same list acts pointwise. -/
theorem zipWith_map_same {α β : Type} (f : β → β → β) (g h : α → β) (l : List α) :
    List.zipWith f (l.map g) (l.map h) = l.map (fun x => f (g x) (h x)) := by
  induction l with
  | nil => rfl
  | cons a rest ih => simp [ih]

/-- dot on matching cons cells. -/
theorem dot_cons (a b : ℚ) (w x : List ℚ) :
    dot (a :: w) (b :: x) = a * b + dot w x := by
  simp [dot]

/-- A dot product against the zero vector vanishes. -/
theorem dot_replicate_zero (w : List ℚ) (n : Nat) :
    dot w (List.replicate n 0) = 0 := by
  induction w generalizing n with
  | nil => simp [dot]
  | cons a w ih =>
      cases n with
      | zero => simp [dot]
      | succ n =>
          rw [List.replicate_succ, dot_cons, ih]
          ring

/-- dot distributes over pointwise addition of equal-length vectors. -/
theorem dot_add (w a b : List ℚ) (h : a.length = b.length) :
    dot w (List.zipWith (fun u v => u + v) a b) = dot w a + dot w b := by
  induction w generalizing a b with
  | nil => simp [dot]
  | cons c w ih =>
      cases a with
      | nil =>
          have hb : b = [] := by
            cases b with
            | nil => rfl
            | cons u v => simp at h
          subst hb
          simp [dot]
      | cons x a2 =>
          cases b with
          | nil => simp at h
          | cons y b2 =>
              rw [List.zipWith_cons_cons, dot_cons, dot_cons, dot_cons,
                ih a2 b2 (by simpa using h)]
              ring

/-- getFeatureVector of the empty valuation is the zero vector. -/
theorem getFeatureVector_nil (fmap : List (Feat × Nat)) (m : Nat) :
    getFeatureVector fmap m [] = List.replicate m 0 := by
  unfold getFeatureVector
  simp [List.map_const']

/-- getFeatureVector splits off the head feature as a coordinate
vector. -/
theorem getFeatureVector_cons (fmap : List (Feat × Nat)) (m : Nat)
    (fv : Feat × ℚ) (utt : List (Feat × ℚ)) :
    getFeatureVector fmap m (fv :: utt) =
      List.zipWith (fun u v => u + v) (unitVec m (fmap.lookup fv.1) fv.2)
        (getFeatureVector fmap m utt) := by
  unfold getFeatureVector unitVec
  rw [zipWith_map_same]
  refine List.map_congr_left fun i hi => ?_
  rw [List.filter_cons]
  by_cases hc : fmap.lookup fv.1 = some i
  · rw [if_pos (by simp only [decide_eq_true_eq]; exact hc), if_pos hc,
      List.map_cons, List.sum_cons]
  · rw [if_neg (by simp only [decide_eq_true_eq]; exact hc), if_neg hc,
      zero_add]

/-- dot against one coordinate of a range slice. -/
theorem dot_unit_aux (j : Nat) (c : ℚ) :
    ∀ (m s : Nat) (w : List ℚ),
      dot w ((List.range' s m).map
          (fun i => if (some j : Option Nat) = some i then c else 0)) =
        if s ≤ j ∧ j < s + m ∧ j - s < w.length then w.getD (j - s) 0 * c
        else 0 := by
  intro m
  induction m with
  | zero =>
      intro s w
      rw [if_neg (by omega)]
      simp [dot]
  | succ m ih =>
      intro s w
      rw [List.range'_succ, List.map_cons]
      cases w with
      | nil =>
          have hcond : ¬(s ≤ j ∧ j < s + (m + 1) ∧
              j - s < ([] : List ℚ).length) := by
            simp only [List.length_nil]
            omega
          rw [if_neg hcond]
          simp [dot]
      | cons a w2 =>
          rw [dot_cons, ih (s + 1) w2]
          by_cases hj : j = s
          · subst hj
            rw [if_pos rfl, if_neg (by omega),
              if_pos (by simp only [List.length_cons]; omega)]
            rw [Nat.sub_self, List.getD_cons_zero]
            ring
          · have hsome : ¬((some j : Option Nat) = some s) := by simp [hj]
            rw [if_neg hsome]
            by_cases hcond : s + 1 ≤ j ∧ j < s + 1 + m ∧ j - (s + 1) < w2.length
            · rw [if_pos hcond, if_pos (by simp only [List.length_cons]; omega)]
              have harith : j - s = (j - (s + 1)) + 1 := by omega
              rw [harith, List.getD_cons_succ]
              ring
            · rw [if_neg hcond, if_neg (by simp only [List.length_cons]; omega)]
              ring

/-- wAtOpt on an absent index. -/
theorem wAtOpt_none (w : List ℚ) : wAtOpt w none = 0 := rfl

/-- wAtOpt on a present index. -/
theorem wAtOpt_some (w : List ℚ) (i : Nat) : wAtOpt w (some i) = w.getD i 0 := rfl

/-- dot with a coordinate vector picks one weighted coefficient. -/
theorem dot_unitVec (w : List ℚ) (m : Nat) (oi : Option Nat) (c : ℚ)
    (hw : w.length = m) (hoi : ∀ j, oi = some j → j < m) :
    dot w (unitVec m oi c) = wAtOpt w oi * c := by
  cases oi with
  | none =>
      rw [wAtOpt_none]
      unfold unitVec
      have hz : (fun i : Nat => if (none : Option Nat) = some i then c else 0) =
          fun _ : Nat => (0 : ℚ) := by
        funext i
        rw [if_neg (by simp)]
      rw [hz, List.map_const', List.length_range, dot_replicate_zero]
      ring
  | some j =>
      rw [wAtOpt_some]
      unfold unitVec
      have hjm : j < m := hoi j rfl
      rw [List.range_eq_range', dot_unit_aux j c m 0 w,
        if_pos ⟨Nat.zero_le j, by omega, by omega⟩]
      rw [Nat.sub_zero]

/-- A successful lookup certifies membership. -/
theorem lookup_mem {β : Type} (fmap : List (Feat × β)) (f : Feat) (v : β)
    (h : fmap.lookup f = some v) : (f, v) ∈ fmap := by
  induction fmap with
  | nil => cases h
  | cons p rest ih =>
      rcases p with ⟨k, val⟩
      rw [List.lookup_cons] at h
      by_cases hb : (f == k) = true
      · simp only [hb] at h
        have hk : f = k := eq_of_beq hb
        have hv : val = v := by injection h
        rw [hk, hv]
        exact List.mem_cons_self _ _
      · rw [Bool.not_eq_true] at hb
        simp only [hb] at h
        exact List.mem_cons_of_mem _ (ih h)

/-- The decode dot product computed feature by feature. -/
theorem dot_getFeatureVector (fmap : List (Feat × Nat)) (m : Nat)
    (w : List ℚ) (hw : w.length = m)
    (hidx : ∀ p ∈ fmap, p.2 < m) (utt : List (Feat × ℚ)) :
    dot w (getFeatureVector fmap m utt) =
      (utt.map (fun fv => wAtOpt w (fmap.lookup fv.1) * fv.2)).sum := by
  induction utt with
  | nil =>
      rw [getFeatureVector_nil, dot_replicate_zero]
      simp
  | cons fv utt ih =>
      have hb : ∀ j, fmap.lookup fv.1 = some j → j < m := by
        intro j hj
        exact hidx (fv.1, j) (lookup_mem fmap fv.1 j hj)
      have hlen : (unitVec m (fmap.lookup fv.1) fv.2).length =
          (getFeatureVector fmap m utt).length := by
        unfold unitVec getFeatureVector
        rw [List.length_map, List.length_map]
      rw [getFeatureVector_cons, dot_add _ _ _ hlen, ih,
        dot_unitVec w m _ fv.2 hw hb, List.map_cons, List.sum_cons]

/-- A fold of max dominates its initial value. -/
theorem foldl_max_init_le (l : List Nat) (a : Nat) : a ≤ l.foldl max a := by
  induction l generalizing a with
  | nil => exact Nat.le_refl a
  | cons b l ih => exact Nat.le_trans (Nat.le_max_left a b) (ih (max a b))

/-- A fold of max dominates every list element. -/
theorem mem_le_foldl_max (l : List Nat) (a x : Nat) (hx : x ∈ l) :
    x ≤ l.foldl max a := by
  induction l generalizing a with
  | nil => cases hx
  | cons b l ih =>
      rcases List.mem_cons.mp hx with h | h
      · subst h
        exact Nat.le_trans (Nat.le_max_right a x) (foldl_max_init_le l (max a x))
      · exact ih (max a b) h

/-- Looking up any key absent from the original map in the reduced map
fails. -/
theorem forget_lookup_none {δ : Type} (coefs : List (δ × List ℚ))
    (rest : List (Feat × Nat)) (f : Feat) (hf : ¬f ∈ rest.map Prod.fst) :
    (rest.filterMap (fun p =>
      if p.2 ∈ usedIdxs coefs then some (p.1, (usedIdxs coefs).indexOf p.2)
      else none)).lookup f = none := by
  induction rest with
  | nil => rfl
  | cons p rest ih =>
      have hne : (f == p.1) = false := by
        rw [beq_eq_false_iff_ne]
        intro h
        exact hf (by rw [List.map_cons, h]; exact List.mem_cons_self _ _)
      have hrest : ¬f ∈ rest.map Prod.fst := by
        intro h
        exact hf (by rw [List.map_cons]; exact List.mem_cons_of_mem _ h)
      rw [List.filterMap_cons]
      by_cases hc : p.2 ∈ usedIdxs coefs
      · rw [if_pos hc, List.lookup_cons]
        simp only [hne]
        exact ih hrest
      · rw [if_neg hc]
        exact ih hrest

/-- Lookup in the reduced map: the original index survives exactly when
it is used, and is then replaced by its rank. -/
theorem forget_lookup {δ : Type} (coefs : List (δ × List ℚ))
    (fmap : List (Feat × Nat)) (f : Feat)
    (hkeys : (fmap.map Prod.fst).Nodup) :
    (forget_useless_feats coefs fmap).1.lookup f =
      match fmap.lookup f with
      | some i =>
          if i ∈ usedIdxs coefs then some ((usedIdxs coefs).indexOf i)
          else none
      | none => none := by
  unfold forget_useless_feats
  induction fmap with
  | nil => rfl
  | cons p rest ih =>
      rw [List.map_cons, List.nodup_cons] at hkeys
      obtain ⟨hp, hrestnd⟩ := hkeys
      rw [List.filterMap_cons, List.lookup_cons]
      by_cases hbf : (f == p.1) = true
      · have hfp : f = p.1 := eq_of_beq hbf
        simp only [hbf]
        by_cases hc : p.2 ∈ usedIdxs coefs
        · rw [if_pos hc, List.lookup_cons]
          simp only [hbf]
          rw [if_pos hc]
        · rw [if_neg hc]
          rw [forget_lookup_none coefs rest f (by rw [hfp]; exact hp)]
          rw [if_neg hc]
      · rw [Bool.not_eq_true] at hbf
        simp only [hbf]
        by_cases hc : p.2 ∈ usedIdxs coefs
        · rw [if_pos hc, List.lookup_cons]
          simp only [hbf]
          exact ih hrestnd
        · rw [if_neg hc]
          exact ih hrestnd

/-- The compacted coefficient vector weighs every feature exactly as the
original one does. -/
theorem weight_remap {δ : Type} (coefs : List (δ × List ℚ)) (dai : δ)
    (w : List ℚ) (hw : (dai, w) ∈ coefs) (fmap : List (Feat × Nat))
    (hkeys : (fmap.map Prod.fst).Nodup) (f : Feat) :
    wAtOpt ((usedIdxs coefs).map (fun i => w.getD i 0))
        ((forget_useless_feats coefs fmap).1.lookup f) =
      wAtOpt w (fmap.lookup f) := by
  rw [forget_lookup coefs fmap f hkeys]
  cases hl : fmap.lookup f with
  | none => rfl
  | some i =>
      by_cases hc : i ∈ usedIdxs coefs
      · simp only [hc, if_true]
        rw [wAtOpt_some, wAtOpt_some]
        rw [getD_map_at (fun i => w.getD i 0) (usedIdxs coefs) 0 _
          (List.indexOf_lt_length.mpr hc)]
        rw [List.indexOf_get]
      · simp only [hc, if_false]
        rw [wAtOpt_none, wAtOpt_some]
        by_cases hz : w.getD i 0 = 0
        · rw [hz]
        · exfalso
          apply hc
          unfold usedIdxs
          rw [List.mem_filter]
          constructor
          · rw [List.mem_range]
            have hiw : i < w.length := by
              by_contra hge
              exact hz (List.getD_eq_default w 0 (Nat.le_of_not_lt hge))
            have hle : w.length ≤
                (coefs.map (fun p => p.2.length)).foldl max 0 :=
              mem_le_foldl_max _ _ _ (List.mem_map.mpr ⟨(dai, w), hw, rfl⟩)
            omega
          · rw [List.any_eq_true]
            exact ⟨(dai, w), hw, by simpa using hz⟩

/-- Claim C5: forget_useless_feats preserves decode outputs.  For every
DAI model (b, w) in the store and every utterance valuation, the
logistic probability computed from the original feature map and
coefficients equals the one computed from the reduced feature map and
the compacted coefficient vector, which is the vector the reduction
stores for that DAI. -/
theorem c5_forget_useless_feats_preserves_decode {δ : Type}
    (coefs : List (δ × List ℚ)) (fmap : List (Feat × Nat)) (m : Nat)
    (utt : List (Feat × ℚ)) (dai : δ) (b : ℚ) (w : List ℚ)
    (hw : (dai, w) ∈ coefs)
    (hkeys : (fmap.map Prod.fst).Nodup)
    (hidx : ∀ p ∈ fmap, p.2 < m)
    (hwlen : w.length = m) :
    ((dai, (usedIdxs coefs).map (fun i => w.getD i 0)) ∈
        (forget_useless_feats coefs fmap).2) ∧
    sigmoid (b + dot w (getFeatureVector fmap m utt)) =
      sigmoid (b + dot ((usedIdxs coefs).map (fun i => w.getD i 0))
        (getFeatureVector (forget_useless_feats coefs fmap).1
          (usedIdxs coefs).length utt)) := by
  constructor
  · unfold forget_useless_feats
    exact List.mem_map.mpr ⟨(dai, w), hw, rfl⟩
  · have hlen2 : ((usedIdxs coefs).map (fun i => w.getD i 0)).length =
        (usedIdxs coefs).length := List.length_map _ _
    have hidx2 : ∀ p ∈ (forget_useless_feats coefs fmap).1,
        p.2 < (usedIdxs coefs).length := by
      intro p hp
      unfold forget_useless_feats at hp
      rcases List.mem_filterMap.mp hp with ⟨q, hq, hqe⟩
      by_cases hc : q.2 ∈ usedIdxs coefs
      · rw [if_pos hc] at hqe
        have hqp : (q.1, (usedIdxs coefs).indexOf q.2) = p := by
          injection hqe
        rw [← hqp]
        exact List.indexOf_lt_length.mpr hc
      · rw [if_neg hc] at hqe
        cases hqe
    have hL1 := dot_getFeatureVector fmap m w hwlen hidx utt
    have hL2 := dot_getFeatureVector (forget_useless_feats coefs fmap).1
      (usedIdxs coefs).length ((usedIdxs coefs).map (fun i => w.getD i 0))
      hlen2 hidx2 utt
    have hmap : utt.map (fun fv =>
          wAtOpt ((usedIdxs coefs).map (fun i => w.getD i 0))
            ((forget_useless_feats coefs fmap).1.lookup fv.1) * fv.2) =
        utt.map (fun fv => wAtOpt w (fmap.lookup fv.1) * fv.2) :=
      List.map_congr_left fun fv _ => by
        rw [weight_remap coefs dai w hw fmap hkeys fv.1]
    rw [hL1, hL2, hmap]

/-- Claim C5 witness: a model over two features where only the second
carries a nonzero coefficient, evaluated on an utterance containing that
feature. -/
theorem c5_forget_useless_feats_preserves_decode_witness :
    ((("hello()", ([0, 2] : List ℚ)) ∈
        ([("hello()", [0, 2])] : List (String × List ℚ))) ∧
      ((([((0, 0), 0), ((0, 1), 1)] : List (Feat × Nat)).map Prod.fst).Nodup) ∧
      (∀ p ∈ ([((0, 0), 0), ((0, 1), 1)] : List (Feat × Nat)), p.2 < 2) ∧
      (([0, 2] : List ℚ).length = 2)) ∧
    ((("hello()", (usedIdxs ([("hello()", [0, 2])] : List (String × List ℚ))).map
          (fun i => ([0, 2] : List ℚ).getD i 0)) ∈
        (forget_useless_feats [("hello()", [0, 2])]
          [((0, 0), 0), ((0, 1), 1)]).2) ∧
      sigmoid (-1 + dot [0, 2]
          (getFeatureVector [((0, 0), 0), ((0, 1), 1)] 2 [((0, 1), 3)])) =
        sigmoid (-1 + dot ((usedIdxs ([("hello()", [0, 2])] : List (String × List ℚ))).map
            (fun i => ([0, 2] : List ℚ).getD i 0))
          (getFeatureVector (forget_useless_feats [("hello()", [0, 2])]
              [((0, 0), 0), ((0, 1), 1)]).1
            (usedIdxs ([("hello()", [0, 2])] : List (String × List ℚ))).length
            [((0, 1), 3)]))) :=
  ⟨⟨List.mem_cons_self _ _, by decide, by decide, rfl⟩,
    c5_forget_useless_feats_preserves_decode [("hello()", [0, 2])]
      [((0, 0), 0), ((0, 1), 1)] 2 [((0, 1), 3)] "hello()" (-1) [0, 2]
      (List.mem_cons_self _ _) (by decide) (by decide) rfl⟩

/-- Claim C4: a version-4 save and load round trip restores feature_idxs,
coefs, cls_thresholds and abstractions bit for bit, but when the loading
instance was constructed with a different abstractions argument (here the
default, while the saved model used all three abstractions), the derived
_do_abstract_values set is not recomputed by the version-4 branch, so the
ngram feature-set layout used by decode-time feature extraction differs
from the layout of the saving model: decode outputs are not preserved. -/
theorem c4_v4_load_drops_do_abstract_values :
    (load_model_v4 (newClassifier ["concrete", "abstract"]) (save_model saverState)).feature_idxs
        = saverState.feature_idxs ∧
      (load_model_v4 (newClassifier ["concrete", "abstract"]) (save_model saverState)).coefs
        = saverState.coefs ∧
      (load_model_v4 (newClassifier ["concrete", "abstract"]) (save_model saverState)).cls_thresholds
        = saverState.cls_thresholds ∧
      (load_model_v4 (newClassifier ["concrete", "abstract"]) (save_model saverState)).abstractions
        = saverState.abstractions ∧
      (load_model_v4 (newClassifier ["concrete", "abstract"]) (save_model saverState)).do_abstract_values
        ≠ saverState.do_abstract_values ∧
      ngramFeatSetTags (load_model_v4 (newClassifier ["concrete", "abstract"]) (save_model saverState))
        ≠ ngramFeatSetTags saverState :=
  ⟨rfl, rfl, rfl, rfl, by decide, by decide⟩

/-- Claim C3 counterexample: the sweep of _calibrate_prior only moves
the split when a boundary strictly improves on the best error seen so
far, and the best error starts at the all-positive baseline rather than
at infinity.  On [(1/10, 1), (2/10, 0), (3/10, 0), (9/10, 1)] the best
boundary error 1/3 only ties the baseline error 1/3, so the split stays
at its initial value 0 and the stored threshold is the midpoint 3/20 of
the two lowest probabilities, while the earliest boundary maximising the
F-score is the third group and the claimed midpoint is 3/5. -/
theorem c3_baseline_tie_counterexample :
    calibrateThreshold [(1/10, 1), (2/10, 0), (3/10, 0), (9/10, 1)] = 3/20 ∧
    claimThreshold [(1/10, 1), (2/10, 0), (3/10, 0), (9/10, 1)] = 3/5 ∧
    (3/20 : ℚ) ≠ 3/5 := by
  refine ⟨?_, ?_, by norm_num⟩
  · norm_num [calibrateThreshold, calibSplitIdx, calibSweep, sortByFst, insertByFst,
      calibInitTP, calibInitFP, fscoreQ, precQ, recQ, List.takeWhile, List.dropWhile]
  · norm_num [claimThreshold, calibBoundaryErrors, boundaryErrors,
      groupRuns_cons, groupRuns_nil, listMin, sortByFst, insertByFst,
      calibInitTP, calibInitFP, fscoreQ, precQ, recQ, List.takeWhile, List.dropWhile,
      List.indexOf, List.findIdx, List.findIdx.go, cond_eq_if, beq_iff_eq, cumLen]

set_option maxHeartbeats 1000000 in
/-- Claim C3 (amended): whenever some boundary error strictly beats the
all-positive baseline error, _calibrate_prior picks the split maximising
the training F-score with the earliest boundary winning ties, and sets
the threshold to the midpoint between the chosen boundary group
probability and the next higher distinct probability, or that group
probability alone at the sequence end; in particular on the input
[(1/10, 0), (2/10, 0), (6/10, 1), (9/10, 1)] the stored threshold is
2/5, strictly between 1/5 and 3/5. -/
theorem c3_calibrate_threshold_amended :
    (∀ data : List (ℚ × ℚ),
      (∃ e ∈ calibBoundaryErrors data, e < calibBaseError data) →
      calibrateThreshold data = claimThreshold data) ∧
    calibrateThreshold [(1/10, 0), (2/10, 0), (6/10, 1), (9/10, 1)] = 2/5 ∧
    ((1/5 : ℚ) < 2/5 ∧ (2/5 : ℚ) < 3/5) := by
  refine ⟨?_, ?_, by norm_num, by norm_num⟩
  · intro data hbeat
    have hb2 : ∃ e ∈ boundaryErrors (calibInitTP (sortByFst data))
        (calibInitFP (sortByFst data)) 0 (groupRuns (sortByFst data)),
        e < 1 - fscoreQ (calibInitTP (sortByFst data))
          (calibInitFP (sortByFst data)) 0 := hbeat
    have herrlen : (calibBoundaryErrors data).length =
        (groupRuns (sortByFst data)).length := boundaryErrors_length _ _ _ _
    have hne : calibBoundaryErrors data ≠ [] := by
      rcases hbeat with ⟨e, he, -⟩
      intro h0
      rw [h0] at he
      cases he
    have hjlt : (calibBoundaryErrors data).indexOf
        (listMin (calibBoundaryErrors data)) <
        (groupRuns (sortByFst data)).length := by
      rw [← herrlen]
      exact List.indexOf_lt_length.mpr (listMin_mem hne)
    have hsplit : calibSplitIdx data =
        cumLen (groupRuns (sortByFst data))
          ((calibBoundaryErrors data).indexOf
            (listMin (calibBoundaryErrors data))) - 1 := by
      unfold calibSplitIdx
      rw [calibSweep_eq_gSweep _ _ (le_refl _),
        gSweep_argmin _ _ _ _ _ _ _ hb2, Nat.zero_add]
      rfl
    obtain ⟨⟨hC1, hCle⟩, hgetj, hnext, hlast⟩ :=
      groupRuns_locate (sortByFst data).length (sortByFst data) (le_refl _)
        ((calibBoundaryErrors data).indexOf (listMin (calibBoundaryErrors data)))
        hjlt
    unfold calibrateThreshold claimThreshold
    rw [hsplit]
    set sd := sortByFst data with hsd
    set gs := groupRuns sd with hgs
    set E := calibBoundaryErrors data with hE
    set j := E.indexOf (listMin E) with hj2
    set C := cumLen gs j with hC
    by_cases hcase : j + 1 < gs.length
    · obtain ⟨hClt, hgetj1⟩ := hnext hcase
      have hcond1 : C - 1 + 1 < sd.length := by omega
      have hidx : C - 1 + 1 = C := by omega
      rw [if_pos hcond1, if_pos hcase, hidx, hgetj, hgetj1]
      ring
    · have hj1e : j + 1 = gs.length := by omega
      have hCeq : C = sd.length := hlast hj1e
      have hcond1 : ¬(C - 1 + 1 < sd.length) := by omega
      rw [if_neg hcond1, if_neg hcase, hgetj]
  · norm_num [calibrateThreshold, calibSplitIdx, calibSweep, sortByFst, insertByFst,
      calibInitTP, calibInitFP, fscoreQ, precQ, recQ, List.takeWhile, List.dropWhile]

set_option maxHeartbeats 1000000 in
/-- Witness for claim C3 on the S5 calibration input: a boundary error
strictly beats the all-positive baseline there, so the stored threshold
coincides with the claimed one. -/
theorem c3_calibrate_threshold_amended_witness :
    (∃ e ∈ calibBoundaryErrors [(1/10, 0), (2/10, 0), (6/10, 1), (9/10, 1)],
      e < calibBaseError [(1/10, 0), (2/10, 0), (6/10, 1), (9/10, 1)]) ∧
    calibrateThreshold [(1/10, 0), (2/10, 0), (6/10, 1), (9/10, 1)] =
      claimThreshold [(1/10, 0), (2/10, 0), (6/10, 1), (9/10, 1)] := by
  have hbeat : ∃ e ∈ calibBoundaryErrors [(1/10, 0), (2/10, 0), (6/10, 1), (9/10, 1)],
      e < calibBaseError [(1/10, 0), (2/10, 0), (6/10, 1), (9/10, 1)] := by
    refine ⟨0, ?_, ?_⟩
    · norm_num [calibBoundaryErrors, boundaryErrors, groupRuns_cons, groupRuns_nil,
        sortByFst, insertByFst, calibInitTP, calibInitFP, fscoreQ, precQ, recQ,
        List.takeWhile, List.dropWhile]
    · norm_num [calibBaseError, calibInitTP, calibInitFP, fscoreQ, precQ, recQ,
        sortByFst, insertByFst]
  exact ⟨hbeat, c3_calibrate_threshold_amended.1 _ hbeat⟩

end DAILR
